import Mathlib

/-!
Verification development for the 2048-style board engine in `src/game.rs`.

The Rust code is shallowly embedded: `Vec<Vec<u32>>` becomes `List (List Nat)`
(tile values are mathematical naturals; overflow of `u32` is unreachable for
boards built from 2/4 tiles and merges in any realistic game and is not
modelled, except that the `usize` write index of `move_zeroes_start`, whose
underflow is a real possibility, is additionally modelled exactly with `Int`
in `move_zeroes_start_trace`).  Imperative loops become structural recursion
or folds; early-`return` scan loops become `List.all` / `List.any`; the
random draws (`thread_rng`) become explicit parameters: the `gen_bool(1/10)`
coin of `random_tile` is a `Bool` argument, the uniformly drawn index of
`gen_range(0..len)` is a `Nat` argument, and the set of distinct positions
produced by the rejection-sampling loop of `random_board` is a `Nodup` list
argument.  Indexing `a[i]` on the nose panics in Rust when out of range; the
embedding reads a default `0` instead, and every theorem that depends on
dimensions carries the well-formedness invariant (`height` rows of `width`
cells) that the Rust code maintains.
-/

abbrev Position : Type := Nat × Nat

abbrev Board : Type := List (List Nat)

/-- Read access `board[i][j]` (out-of-range reads give the default `0`). -/
def getCell (b : Board) (i j : Nat) : Nat := (b.getD i []).getD j 0

/-- Write access `board[i][j] = v` (out-of-range writes are a no-op). -/
def setCell (b : Board) (i j v : Nat) : Board := b.set i ((b.getD i []).set j v)

/-- Rust tuple swap `(a[i], a[j]) = (a[j], a[i])`: the right-hand side is read
from the original list, then both positions are assigned. -/
def swapCells (a : List Nat) (i j : Nat) : List Nat :=
  (a.set i (a.getD j 0)).set j (a.getD i 0)

/-- Embedding of `struct BoardConfig` (`game.rs` lines 33-37). -/
structure BoardConfig where
  width : Nat
  height : Nat
  count : Nat
  deriving DecidableEq

/-- Embedding of `random_tile` (`game.rs` lines 52-59): the Bernoulli(1/10)
draw `thread_rng().gen_bool(1.0/10.0)` is passed in as the argument `four`. -/
def random_tile (four : Bool) : Nat := if four then 4 else 2

/-- The all-zero board `vec![vec![0; width]; height]` (`game.rs` line 76). -/
def emptyBoard (config : BoardConfig) : Board :=
  List.replicate config.height (List.replicate config.width 0)

/-- The loop `for position in unique_positions { board[..][..] = random_tile() }`
(`game.rs` lines 79-81).  `positions` stands for the contents of the
`HashSet` built by the rejection-sampling loop (pairwise distinct, in range);
`coin` gives the per-position `gen_bool` draw of each `random_tile()` call. -/
def fillPositions (config : BoardConfig) (positions : List Position)
    (coin : Position → Bool) : Board :=
  positions.foldl (fun b p => setCell b p.1 p.2 (random_tile (coin p)))
    (emptyBoard config)

/-- Embedding of `random_board` (`game.rs` lines 61-84): the three sequential
early-return checks, then the board is built from the sampled positions. -/
def random_board (config : BoardConfig) (positions : List Position)
    (coin : Position → Bool) : Except String Board :=
  if config.count = 0 then Except.error "Empty board!"
  else if config.count = config.width * config.height then Except.error "Full board!"
  else if config.width * config.height < config.count then Except.error "Overflow!"
  else Except.ok (fillPositions config positions coin)

/-- Loop body of `move_zeroes_end` (`game.rs` lines 89-95): `j` is the write
index, `i` the scan index, and the last argument the number of remaining
iterations (`i` runs up to the length, so the fuel is `length - i`). -/
def compactFwdLoop : List Nat → Nat → Nat → Nat → List Nat
  | a, _, _, 0 => a
  | a, j, i, fuel+1 =>
    if a.getD i 0 ≠ 0 then compactFwdLoop (swapCells a i j) (j+1) (i+1) fuel
    else compactFwdLoop a j (i+1) fuel

/-- Embedding of `move_zeroes_end` (`game.rs` lines 86-96). -/
def move_zeroes_end (l : List Nat) : List Nat :=
  if l.isEmpty then l else compactFwdLoop l 0 0 l.length

/-- Loop body of `move_zeroes_start` (`game.rs` lines 101-107): the scan index
runs downward (`i+1` iterations remaining means positions `i, i-1, ..., 0`
are still to be processed).  The Rust write index `j` is a `usize`; `j - 1`
here is truncated Nat subtraction, which agrees with the Rust release-mode
wrapping subtraction on every run in which the wrapped value is never used
again (the wrap can only happen on the final iteration, see the C10
theorems, where the exact `Int`-valued trace is analysed). -/
def compactRevLoop : List Nat → Nat → Nat → List Nat
  | a, _, 0 => a
  | a, j, i+1 =>
    if a.getD i 0 ≠ 0 then compactRevLoop (swapCells a i j) (j-1) i
    else compactRevLoop a j i

/-- Embedding of `move_zeroes_start` (`game.rs` lines 98-108). -/
def move_zeroes_start (l : List Nat) : List Nat :=
  if l.isEmpty then l else compactRevLoop l (l.length - 1) l.length

/-- The inline column compaction of `move_up` (`game.rs` lines 351-359),
identical to the `move_zeroes_end` loop but bounded by `config.height`
instead of the vector length. -/
def compactFwd (n : Nat) (l : List Nat) : List Nat := compactFwdLoop l 0 0 n

/-- The inline column compaction of `move_down` (`game.rs` lines 383-391),
identical to the `move_zeroes_start` loop but bounded by `config.height`. -/
def compactRev (n : Nat) (l : List Nat) : List Nat := compactRevLoop l (n-1) n

/-- Exact-`Int` instrumentation of the `move_zeroes_start` loop: the write
index `j` is tracked in `Int`, so a decrement of `j` below zero (a `usize`
underflow in the Rust source) is visible in the final value. -/
def compactRevTraceLoop : List Nat → Int → Nat → List Nat × Int
  | a, j, 0 => (a, j)
  | a, j, i+1 =>
    if a.getD i 0 ≠ 0 then compactRevTraceLoop (swapCells a i j.toNat) (j-1) i
    else compactRevTraceLoop a j i

/-- Instrumented `move_zeroes_start` returning the final value of the write
index `j` (which starts at `length - 1` and is decremented once per non-zero
entry; a negative final value means the `usize` subtraction underflowed). -/
def move_zeroes_start_trace (l : List Nat) : List Nat × Int :=
  if l.isEmpty then (l, 0) else compactRevTraceLoop l ((l.length : Int) - 1) l.length

/-- Inner neighbour scan `for j in (i+1)..n { if a[j] == 0 continue; ...; break }`
(`game.rs` lines 287-298 and analogues): index of the first non-zero entry at
a position in `[start, n)`. -/
def firstNonzeroFrom (n : Nat) (l : List Nat) (start : Nat) : Option Nat :=
  (List.range' start (n - start)).find? (fun j => l.getD j 0 != 0)

/-- Inner neighbour scan `for j in (0..i).rev() { ... }` (`game.rs` lines
312-321 and analogues): index of the first non-zero entry strictly below `i`,
scanning downward. -/
def firstNonzeroBelow (l : List Nat) (i : Nat) : Option Nat :=
  (List.range i).reverse.find? (fun j => l.getD j 0 != 0)

/-- One iteration of the merge scan of `move_left` / `move_up` at scan index
`i` (`game.rs` lines 284-299): skip a zero cell; otherwise find the first
non-zero neighbour after `i` (bounded by `n`, the configured line length);
if its value matches, double the cell at `i`, zero the neighbour, and report
the doubled value as the score delta (`apply_score`, lines 151-154). -/
def mergeAtFwd (n : Nat) (l : List Nat) (i : Nat) : List Nat × Nat :=
  if l.getD i 0 = 0 then (l, 0)
  else
    match firstNonzeroFrom n l (i+1) with
    | none => (l, 0)
    | some j =>
      if l.getD i 0 = l.getD j 0 then
        ((l.set i (2 * l.getD i 0)).set j 0, 2 * l.getD i 0)
      else (l, 0)

/-- One iteration of the merge scan of `move_right` / `move_down` at scan
index `i` (`game.rs` lines 309-322): the first non-zero neighbour is searched
below `i`, scanning downward. -/
def mergeAtRev (l : List Nat) (i : Nat) : List Nat × Nat :=
  if l.getD i 0 = 0 then (l, 0)
  else
    match firstNonzeroBelow l i with
    | none => (l, 0)
    | some j =>
      if l.getD i 0 = l.getD j 0 then
        ((l.set i (2 * l.getD i 0)).set j 0, 2 * l.getD i 0)
      else (l, 0)

/-- The ascending merge loop `for i in 0..n` of `move_left` / `move_up`:
`i` is the next scan index, the last argument the remaining iteration count;
score deltas of the individual merges are summed. -/
def mergePassFwdLoop (n : Nat) : List Nat → Nat → Nat → List Nat × Nat
  | l, _, 0 => (l, 0)
  | l, i, fuel+1 =>
    let p := mergeAtFwd n l i
    let q := mergePassFwdLoop n p.1 (i+1) fuel
    (q.1, p.2 + q.2)

/-- Full ascending merge pass over a line of configured length `n`. -/
def mergePassFwd (n : Nat) (l : List Nat) : List Nat × Nat := mergePassFwdLoop n l 0 n

/-- The descending merge loop `for i in (0..n).rev()` of `move_right` /
`move_down`: with `i+1` iterations remaining, scan index `i` is processed. -/
def mergePassRevLoop : List Nat → Nat → List Nat × Nat
  | l, 0 => (l, 0)
  | l, i+1 =>
    let p := mergeAtRev l i
    let q := mergePassRevLoop p.1 i
    (q.1, p.2 + q.2)

/-- Full descending merge pass over a line of configured length `n`. -/
def mergePassRev (n : Nat) (l : List Nat) : List Nat × Nat := mergePassRevLoop l n

/-- Embedding of `equal_boards` (`game.rs` lines 110-122): dimension checks
plus cell-by-cell comparison, with early `return false` loops rendered as
`List.all`. -/
def equal_boards (a b : Board) : Bool :=
  (a.length == b.length) &&
  (List.range a.length).all (fun row =>
    ((a.getD row []).length == (b.getD row []).length) &&
    (List.range (a.getD row []).length).all (fun i =>
      (a.getD row []).getD i 0 == (b.getD row []).getD i 0))

/-- Embedding of `enum Keypress` (`game.rs` line 124). -/
inductive Keypress where
  | Up | Down | Left | Right | Reset | Quit
  deriving DecidableEq

/-- Embedding of `enum GameResult` (`game.rs` line 49). -/
inductive GameResult where
  | GameOver | Exit | NoMove | NextMove | Reset | UnknownKeyPress
  deriving DecidableEq

/-- Embedding of `struct Game` (`game.rs` lines 143-147). -/
structure Game where
  config : BoardConfig
  board : Board
  score : Nat
  deriving DecidableEq

/-- Merge-then-compact processing of one row by `move_left` (`game.rs` lines
281-304).  The Rust code first runs the merge loop over every row and then
the compaction over every row; since each row is processed independently of
all others, this per-row fusion computes the same board. -/
def moveRowLeft (n : Nat) (l : List Nat) : List Nat × Nat :=
  let p := mergePassFwd n l
  (move_zeroes_end p.1, p.2)

/-- Embedding of `Game::move_left` (`game.rs` lines 281-304): every row is
merged (scan bounded by `config.width`) and compacted (`move_zeroes_end`
uses the row's own length, as in the source); the score deltas of all
merges are added to the score (`apply_score`). -/
def move_left (g : Game) : Game :=
  { g with
    board := g.board.map (fun row => (moveRowLeft g.config.width row).1),
    score := g.score + (g.board.map (fun row => (moveRowLeft g.config.width row).2)).sum }

/-- Merge-then-compact processing of one row by `move_right` (`game.rs` lines
306-328). -/
def moveRowRight (n : Nat) (l : List Nat) : List Nat × Nat :=
  let p := mergePassRev n l
  (move_zeroes_start p.1, p.2)

/-- Embedding of `Game::move_right` (`game.rs` lines 306-328). -/
def move_right (g : Game) : Game :=
  { g with
    board := g.board.map (fun row => (moveRowRight g.config.width row).1),
    score := g.score + (g.board.map (fun row => (moveRowRight g.config.width row).2)).sum }

/-- Column `c` of the board: the values `board[0][c], board[1][c], ...`. -/
def getCol (b : Board) (c : Nat) : List Nat := b.map (fun row => row.getD c 0)

/-- Writing a column back: entry `c` of row `i` becomes `col[i]`. -/
def setColumn (b : Board) (c : Nat) (col : List Nat) : Board :=
  List.zipWith (fun row v => row.set c v) b col

/-- Merge-then-compact processing of one column by `move_up` (`game.rs` lines
330-360): ascending merge scan and the inline ascending compaction, both
bounded by `config.height`. -/
def colUpFn (n : Nat) (col : List Nat) : List Nat × Nat :=
  let p := mergePassFwd n col
  (compactFwd n p.1, p.2)

/-- Merge-then-compact processing of one column by `move_down` (`game.rs`
lines 362-392): descending merge scan and the inline descending compaction. -/
def colDownFn (n : Nat) (col : List Nat) : List Nat × Nat :=
  let p := mergePassRev n col
  (compactRev n p.1, p.2)

/-- Processing of a single column `c`: extract it, transform it with `f`
(merge plus compaction), write it back, add the score delta. -/
def colStep (f : Nat → List Nat → List Nat × Nat) (G : Game) (c : Nat) : Game :=
  { G with
    board := setColumn G.board c (f G.config.height (getCol G.board c)).1,
    score := G.score + (f G.config.height (getCol G.board c)).2 }

/-- Column-wise driver shared by `move_up` and `move_down`: the Rust code
loops `for column in 0..width` for the merge phase and again for the
compaction phase; each column is processed independently of all others, so
fusing the two phases per column computes the same board and score. -/
def colApply (f : Nat → List Nat → List Nat × Nat) (g : Game) : Game :=
  (List.range g.config.width).foldl (colStep f) g

/-- Embedding of `Game::move_up` (`game.rs` lines 330-360). -/
def move_up (g : Game) : Game := colApply colUpFn g

/-- Embedding of `Game::move_down` (`game.rs` lines 362-392). -/
def move_down (g : Game) : Game := colApply colDownFn g

/-- Line scan of the `game_over` merge test, ascending direction (`game.rs`
lines 174-184 for rows, 200-210 for columns): some non-zero cell's first
non-zero neighbour in ascending scan order has an equal value. -/
def lineHasMergeFwd (n : Nat) (l : List Nat) : Bool :=
  (List.range n).any (fun i =>
    (l.getD i 0 != 0) &&
    (match firstNonzeroFrom n l (i+1) with
     | some j => l.getD i 0 == l.getD j 0
     | none => false))

/-- Line scan of the `game_over` merge test, descending direction (`game.rs`
lines 186-197 for rows, 212-223 for columns). -/
def lineHasMergeRev (n : Nat) (l : List Nat) : Bool :=
  (List.range n).any (fun i =>
    (l.getD i 0 != 0) &&
    (match firstNonzeroBelow l i with
     | some j => l.getD i 0 == l.getD j 0
     | none => false))

/-- Embedding of `Game::game_over` (`game.rs` lines 162-226): no zero cell,
and none of the four directional scans finds a merge (each early
`return false` loop becomes a `List.all` of the negated condition). -/
def game_over (g : Game) : Bool :=
  ((List.range g.config.height).all (fun i =>
    (List.range g.config.width).all (fun j => getCell g.board i j != 0)))
  && ((List.range g.config.height).all (fun row =>
        !(lineHasMergeFwd g.config.width (g.board.getD row []))))
  && ((List.range g.config.height).all (fun row =>
        !(lineHasMergeRev g.config.width (g.board.getD row []))))
  && ((List.range g.config.width).all (fun column =>
        !(lineHasMergeFwd g.config.height (getCol g.board column))))
  && ((List.range g.config.width).all (fun column =>
        !(lineHasMergeRev g.config.height (getCol g.board column))))

/-- The `free_tiles` vector of `Game::add_random_tile` (`game.rs` lines
263-271): all in-range positions holding a zero, in row-major order. -/
def free_tiles (g : Game) : List Position :=
  (List.range g.config.height).flatMap (fun i =>
    (List.range g.config.width).filterMap (fun j =>
      if getCell g.board i j = 0 then some (i, j) else none))

/-- Embedding of `Game::add_random_tile` (`game.rs` lines 262-279): the
uniform draw `gen_range(0..free_tiles.len())` is passed in as `r`, the coin
of the `random_tile()` call as `four`. -/
def add_random_tile (g : Game) (r : Nat) (four : Bool) : Game :=
  let free := free_tiles g
  if free.length = 0 then g
  else
    let pos := free.getD r (0, 0)
    { g with board := setCell g.board pos.1 pos.2 (random_tile four) }

/-- Dispatch of a directional keypress (`game.rs` lines 243-250, the four
direction arms of the `match`). -/
def dirMove (k : Keypress) (g : Game) : Game :=
  match k with
  | Keypress.Left => move_left g
  | Keypress.Right => move_right g
  | Keypress.Up => move_up g
  | Keypress.Down => move_down g
  | _ => g

/-- Embedding of `Game::play_move` (`game.rs` lines 228-260) for an already
classified keypress (the `getch` decoding and its `UnknownKeyPress` outcome
are input handling outside the board engine): game-over check, early exits
for Quit/Reset, then the move, the `equal_boards` no-op test against the
snapshot taken before the move, and tile injection on success. -/
def play_move (g : Game) (k : Keypress) (r : Nat) (four : Bool) : Game × GameResult :=
  if game_over g then (g, GameResult.GameOver)
  else
    match k with
    | Keypress.Quit => (g, GameResult.Exit)
    | Keypress.Reset => (g, GameResult.Reset)
    | _ =>
      let g1 := dirMove k g
      if equal_boards g1.board g.board then (g1, GameResult.NoMove)
      else (add_random_tile g1 r four, GameResult.NextMove)

/-- Total tile mass of a board. -/
def boardSum (b : Board) : Nat := (b.map (fun row => row.sum)).sum

/-- Number of non-zero cells of a board. -/
def countNonzero (b : Board) : Nat :=
  (b.map (fun row => row.countP (fun v => v != 0))).sum

/-- Dimension invariant maintained by the Rust code: exactly `height` rows of
exactly `width` cells. -/
def WellFormed (g : Game) : Prop :=
  g.board.length = g.config.height ∧ ∀ row ∈ g.board, row.length = g.config.width

/-- A line is fully compacted toward the right edge: every zero precedes
every non-zero entry. -/
abbrev CompactedRight (l : List Nat) : Prop :=
  ∀ i < l.length, ∀ j < l.length, i ≤ j → l.getD i 0 ≠ 0 → l.getD j 0 ≠ 0

/-- Declarative reading of an ascending `game_over` line scan finding no
merge: no non-zero cell's first non-zero neighbour in ascending scan order
has an equal value. -/
def NoMergeFwdP (n : Nat) (l : List Nat) : Prop :=
  ∀ i < n, l.getD i 0 ≠ 0 →
    ∀ j, firstNonzeroFrom n l (i+1) = some j → l.getD i 0 ≠ l.getD j 0

/-- Declarative reading of a descending `game_over` line scan finding no
merge. -/
def NoMergeRevP (n : Nat) (l : List Nat) : Prop :=
  ∀ i < n, l.getD i 0 ≠ 0 →
    ∀ j, firstNonzeroBelow l i = some j → l.getD i 0 ≠ l.getD j 0

/-- Declarative game-over condition of the specification: every cell is
non-zero, and no scan of any row (in either horizontal direction) or any
column (in either vertical direction) finds a non-zero cell whose first
non-zero neighbour in scan order has an equal value. -/
def GameOverP (g : Game) : Prop :=
  (∀ i < g.config.height, ∀ j < g.config.width, getCell g.board i j ≠ 0) ∧
  (∀ row < g.config.height,
    NoMergeFwdP g.config.width (g.board.getD row []) ∧
    NoMergeRevP g.config.width (g.board.getD row [])) ∧
  (∀ column < g.config.width,
    NoMergeFwdP g.config.height (getCol g.board column) ∧
    NoMergeRevP g.config.height (getCol g.board column))

/-- The four directional keypresses. -/
def Directional (k : Keypress) : Prop :=
  k = Keypress.Left ∨ k = Keypress.Right ∨ k = Keypress.Up ∨ k = Keypress.Down

/-! Basic toolkit about `getD`, `set`, sums and counts. -/

theorem getD_pos_lt {l : List Nat} {i : Nat} (h : l.getD i 0 ≠ 0) : i < l.length := by
  by_contra hc
  rw [List.getD_eq_getElem?_getD, List.getElem?_eq_none (by omega)] at h
  simp at h

theorem getD_set_self {l : List Nat} {i : Nat} (h : i < l.length) (v : Nat) :
    (l.set i v).getD i 0 = v := by
  rw [List.getD_eq_getElem?_getD, List.getElem?_set_self h]
  rfl

theorem getD_set_ne {l : List Nat} {i k : Nat} (h : i ≠ k) (v : Nat) :
    (l.set i v).getD k 0 = l.getD k 0 := by
  rw [List.getD_eq_getElem?_getD, List.getElem?_set_ne h, ← List.getD_eq_getElem?_getD]

theorem set_getD_self {l : List Nat} {i : Nat} : l.set i (l.getD i 0) = l := by
  induction l generalizing i with
  | nil => rfl
  | cons a t ih =>
    cases i with
    | zero => rfl
    | succ n => simpa [List.set] using ih

theorem sum_set_add {l : List Nat} {i : Nat} (h : i < l.length) (v : Nat) :
    (l.set i v).sum + l.getD i 0 = l.sum + v := by
  induction l generalizing i with
  | nil => simp at h
  | cons a t ih =>
    cases i with
    | zero => simp; omega
    | succ n =>
      have hn : n < t.length := by simpa using h
      have := ih hn
      simp only [List.set, List.getD_cons_succ, List.sum_cons]
      omega

theorem countP_set_add (p : Nat → Bool) {l : List Nat} {i : Nat} (h : i < l.length) (v : Nat) :
    (l.set i v).countP p + (if p (l.getD i 0) then 1 else 0)
      = l.countP p + (if p v then 1 else 0) := by
  induction l generalizing i with
  | nil => simp at h
  | cons a t ih =>
    cases i with
    | zero => simp [List.countP_cons]; omega
    | succ n =>
      have hn : n < t.length := by simpa using h
      have := ih hn
      simp only [List.set, List.getD_cons_succ, List.countP_cons]
      omega

/-! Swaps preserve length, sum, counts and the multiset of entries. -/

theorem swapCells_length (a : List Nat) (i j : Nat) :
    (swapCells a i j).length = a.length := by
  simp [swapCells]

theorem swapCells_countP (p : Nat → Bool) {a : List Nat} {i j : Nat}
    (hi : i < a.length) (hj : j < a.length) :
    (swapCells a i j).countP p = a.countP p := by
  by_cases hij : i = j
  · subst hij
    unfold swapCells
    rw [List.set_set, set_getD_self]
  · have h1 := countP_set_add p hi (a.getD j 0)
    have hj' : j < (a.set i (a.getD j 0)).length := by simpa using hj
    have h2 := countP_set_add p hj' (a.getD i 0)
    rw [getD_set_ne hij] at h2
    unfold swapCells
    omega

theorem swapCells_count (x : Nat) {a : List Nat} {i j : Nat}
    (hi : i < a.length) (hj : j < a.length) :
    (swapCells a i j).count x = a.count x := by
  rw [List.count_eq_countP, List.count_eq_countP]
  exact swapCells_countP _ hi hj

theorem swapCells_perm {a : List Nat} {i j : Nat}
    (hi : i < a.length) (hj : j < a.length) :
    List.Perm (swapCells a i j) a := by
  rw [List.perm_iff_count]
  intro x
  exact swapCells_count x hi hj

/-! The compaction loops permute the line (hence preserve length, sum and
the number of zero cells). -/

theorem compactFwdLoop_perm :
    ∀ (fuel : Nat) (a : List Nat) (j i : Nat), j ≤ i →
      List.Perm (compactFwdLoop a j i fuel) a := by
  intro fuel
  induction fuel with
  | zero => intro a j i _; exact List.Perm.refl a
  | succ fuel ih =>
    intro a j i hji
    rw [compactFwdLoop]
    by_cases h : a.getD i 0 ≠ 0
    · have hi : i < a.length := getD_pos_lt h
      have hj : j < a.length := Nat.lt_of_le_of_lt hji hi
      rw [if_pos h]
      exact (ih (swapCells a i j) (j+1) (i+1) (by omega)).trans (swapCells_perm hi hj)
    · rw [if_neg h]
      exact ih a j (i+1) (by omega)

theorem compactRevLoop_perm :
    ∀ (i : Nat) (a : List Nat) (j : Nat), j < a.length →
      List.Perm (compactRevLoop a j i) a := by
  intro i
  induction i with
  | zero => intro a j _; exact List.Perm.refl a
  | succ i ih =>
    intro a j hj
    rw [compactRevLoop]
    by_cases h : a.getD i 0 ≠ 0
    · have hi : i < a.length := getD_pos_lt h
      rw [if_pos h]
      refine (ih (swapCells a i j) (j-1) ?_).trans (swapCells_perm hi hj)
      rw [swapCells_length]
      omega
    · rw [if_neg h]
      exact ih a j hj

theorem move_zeroes_end_perm (l : List Nat) : List.Perm (move_zeroes_end l) l := by
  unfold move_zeroes_end
  by_cases h : l.isEmpty
  · simp [h]
  · simp only [h, if_false]
    exact compactFwdLoop_perm l.length l 0 0 (Nat.le_refl 0)

theorem compactFwd_perm (n : Nat) (l : List Nat) : List.Perm (compactFwd n l) l :=
  compactFwdLoop_perm n l 0 0 (Nat.le_refl 0)

theorem move_zeroes_start_perm (l : List Nat) : List.Perm (move_zeroes_start l) l := by
  unfold move_zeroes_start
  by_cases h : l.isEmpty
  · simp [h]
  · simp only [h, if_false]
    refine compactRevLoop_perm l.length l (l.length - 1) ?_
    cases l with
    | nil => simp at h
    | cons a t => simp

theorem compactRev_perm {n : Nat} {l : List Nat} (h : l.length = n) :
    List.Perm (compactRev n l) l := by
  unfold compactRev
  cases n with
  | zero => exact List.Perm.refl l
  | succ m =>
    refine compactRevLoop_perm (m+1) l ((m+1)-1) ?_
    omega

/-! Specifications of the neighbour scans. -/

theorem firstNonzeroFrom_spec {n : Nat} {l : List Nat} {start j : Nat}
    (h : firstNonzeroFrom n l start = some j) :
    start ≤ j ∧ j < n ∧ l.getD j 0 ≠ 0 := by
  unfold firstNonzeroFrom at h
  have hp := List.find?_some h
  have hm := List.mem_of_find?_eq_some h
  rw [List.mem_range'] at hm
  obtain ⟨k, hk, rfl⟩ := hm
  refine ⟨by omega, by omega, by simpa using hp⟩

theorem firstNonzeroBelow_spec {l : List Nat} {i j : Nat}
    (h : firstNonzeroBelow l i = some j) :
    j < i ∧ l.getD j 0 ≠ 0 := by
  unfold firstNonzeroBelow at h
  have hp := List.find?_some h
  have hm := List.mem_of_find?_eq_some h
  rw [List.mem_reverse, List.mem_range] at hm
  exact ⟨hm, by simpa using hp⟩

/-! A single merge step preserves the line's total mass, and its score delta
is zero exactly when it leaves the number of non-zero cells unchanged. -/

theorem mergeAtFwd_sum (n : Nat) (l : List Nat) (i : Nat) :
    (mergeAtFwd n l i).1.sum = l.sum := by
  unfold mergeAtFwd
  by_cases h0 : l.getD i 0 = 0
  · rw [if_pos h0]
  · rw [if_neg h0]
    cases hf : firstNonzeroFrom n l (i+1) with
    | none => rfl
    | some j =>
      dsimp only
      obtain ⟨hij, hjn, hjnz⟩ := firstNonzeroFrom_spec hf
      by_cases he : l.getD i 0 = l.getD j 0
      · rw [if_pos he]
        have hi : i < l.length := getD_pos_lt h0
        have hj : j < l.length := getD_pos_lt hjnz
        have hne : i ≠ j := by omega
        have h1 := sum_set_add hi (2 * l.getD i 0)
        have hj2 : j < (l.set i (2 * l.getD i 0)).length := by simpa using hj
        have h2 := sum_set_add hj2 0
        rw [getD_set_ne hne] at h2
        simp only
        omega
      · rw [if_neg he]

theorem mergeAtRev_sum (l : List Nat) (i : Nat) :
    (mergeAtRev l i).1.sum = l.sum := by
  unfold mergeAtRev
  by_cases h0 : l.getD i 0 = 0
  · rw [if_pos h0]
  · rw [if_neg h0]
    cases hf : firstNonzeroBelow l i with
    | none => rfl
    | some j =>
      dsimp only
      obtain ⟨hij, hjnz⟩ := firstNonzeroBelow_spec hf
      by_cases he : l.getD i 0 = l.getD j 0
      · rw [if_pos he]
        have hi : i < l.length := getD_pos_lt h0
        have hj : j < l.length := getD_pos_lt hjnz
        have hne : i ≠ j := by omega
        have h1 := sum_set_add hi (2 * l.getD i 0)
        have hj2 : j < (l.set i (2 * l.getD i 0)).length := by simpa using hj
        have h2 := sum_set_add hj2 0
        rw [getD_set_ne hne] at h2
        simp only
        omega
      · rw [if_neg he]

theorem mergeAtFwd_length (n : Nat) (l : List Nat) (i : Nat) :
    (mergeAtFwd n l i).1.length = l.length := by
  unfold mergeAtFwd
  by_cases h0 : l.getD i 0 = 0
  · rw [if_pos h0]
  · rw [if_neg h0]
    cases hf : firstNonzeroFrom n l (i+1) with
    | none => rfl
    | some j =>
      dsimp only
      by_cases he : l.getD i 0 = l.getD j 0
      · rw [if_pos he]; simp
      · rw [if_neg he]

theorem mergeAtRev_length (l : List Nat) (i : Nat) :
    (mergeAtRev l i).1.length = l.length := by
  unfold mergeAtRev
  by_cases h0 : l.getD i 0 = 0
  · rw [if_pos h0]
  · rw [if_neg h0]
    cases hf : firstNonzeroBelow l i with
    | none => rfl
    | some j =>
      dsimp only
      by_cases he : l.getD i 0 = l.getD j 0
      · rw [if_pos he]; simp
      · rw [if_neg he]

theorem mergeAtFwd_countP (n : Nat) (l : List Nat) (i : Nat) :
    (mergeAtFwd n l i).1.countP (fun v => v != 0)
      + (if (mergeAtFwd n l i).2 = 0 then 0 else 1)
      = l.countP (fun v => v != 0) := by
  unfold mergeAtFwd
  by_cases h0 : l.getD i 0 = 0
  · rw [if_pos h0]; simp
  · rw [if_neg h0]
    cases hf : firstNonzeroFrom n l (i+1) with
    | none => simp
    | some j =>
      dsimp only
      obtain ⟨hij, hjn, hjnz⟩ := firstNonzeroFrom_spec hf
      by_cases he : l.getD i 0 = l.getD j 0
      · rw [if_pos he]
        have hi : i < l.length := getD_pos_lt h0
        have hj : j < l.length := getD_pos_lt hjnz
        have hne : i ≠ j := by omega
        have h1 := countP_set_add (fun v => v != 0) hi (2 * l.getD i 0)
        have hj2 : j < (l.set i (2 * l.getD i 0)).length := by simpa using hj
        have h2 := countP_set_add (fun v => v != 0) hj2 0
        rw [getD_set_ne hne] at h2
        have e1 : ((l.getD i 0 != 0) = true) := by simpa using h0
        have e2 : ((2 * l.getD i 0 != 0) = true) := by
          simp only [bne_iff_ne, ne_eq]
          omega
        have e3 : ((l.getD j 0 != 0) = true) := by simpa using hjnz
        rw [e1, e2] at h1
        rw [e3] at h2
        have e4 : ¬(2 * l.getD i 0 = 0) := by omega
        rw [if_neg e4]
        norm_num at h1 h2 ⊢
        omega
      · rw [if_neg he]; simp

theorem mergeAtRev_countP (l : List Nat) (i : Nat) :
    (mergeAtRev l i).1.countP (fun v => v != 0)
      + (if (mergeAtRev l i).2 = 0 then 0 else 1)
      = l.countP (fun v => v != 0) := by
  unfold mergeAtRev
  by_cases h0 : l.getD i 0 = 0
  · rw [if_pos h0]; simp
  · rw [if_neg h0]
    cases hf : firstNonzeroBelow l i with
    | none => simp
    | some j =>
      dsimp only
      obtain ⟨hij, hjnz⟩ := firstNonzeroBelow_spec hf
      by_cases he : l.getD i 0 = l.getD j 0
      · rw [if_pos he]
        have hi : i < l.length := getD_pos_lt h0
        have hj : j < l.length := getD_pos_lt hjnz
        have hne : i ≠ j := by omega
        have h1 := countP_set_add (fun v => v != 0) hi (2 * l.getD i 0)
        have hj2 : j < (l.set i (2 * l.getD i 0)).length := by simpa using hj
        have h2 := countP_set_add (fun v => v != 0) hj2 0
        rw [getD_set_ne hne] at h2
        have e1 : ((l.getD i 0 != 0) = true) := by simpa using h0
        have e2 : ((2 * l.getD i 0 != 0) = true) := by
          simp only [bne_iff_ne, ne_eq]
          omega
        have e3 : ((l.getD j 0 != 0) = true) := by simpa using hjnz
        rw [e1, e2] at h1
        rw [e3] at h2
        have e4 : ¬(2 * l.getD i 0 = 0) := by omega
        rw [if_neg e4]
        norm_num at h1 h2 ⊢
        omega
      · rw [if_neg he]; simp

/-! The full merge passes preserve mass and length, and their score delta is
zero whenever they leave the number of non-zero cells unchanged. -/

theorem mergePassFwdLoop_sum (n : Nat) :
    ∀ (fuel : Nat) (l : List Nat) (i : Nat),
      (mergePassFwdLoop n l i fuel).1.sum = l.sum := by
  intro fuel
  induction fuel with
  | zero => intro l i; rfl
  | succ fuel ih =>
    intro l i
    rw [mergePassFwdLoop]
    dsimp only
    rw [ih, mergeAtFwd_sum]

theorem mergePassFwdLoop_length (n : Nat) :
    ∀ (fuel : Nat) (l : List Nat) (i : Nat),
      (mergePassFwdLoop n l i fuel).1.length = l.length := by
  intro fuel
  induction fuel with
  | zero => intro l i; rfl
  | succ fuel ih =>
    intro l i
    rw [mergePassFwdLoop]
    dsimp only
    rw [ih, mergeAtFwd_length]

theorem mergePassFwdLoop_countP (n : Nat) :
    ∀ (fuel : Nat) (l : List Nat) (i : Nat),
      (mergePassFwdLoop n l i fuel).1.countP (fun v => v != 0)
          ≤ l.countP (fun v => v != 0)
      ∧ ((mergePassFwdLoop n l i fuel).1.countP (fun v => v != 0)
            = l.countP (fun v => v != 0)
          → (mergePassFwdLoop n l i fuel).2 = 0) := by
  intro fuel
  induction fuel with
  | zero => intro l i; exact ⟨Nat.le_refl _, fun _ => rfl⟩
  | succ fuel ih =>
    intro l i
    rw [mergePassFwdLoop]
    dsimp only
    have hstep := mergeAtFwd_countP n l i
    have hih := ih (mergeAtFwd n l i).1 (i+1)
    by_cases hP : (mergeAtFwd n l i).2 = 0
    · rw [if_pos hP] at hstep
      constructor
      · omega
      · intro heq
        have : (mergePassFwdLoop n (mergeAtFwd n l i).1 (i + 1) fuel).2 = 0 := by
          apply hih.2
          omega
        omega
    · rw [if_neg hP] at hstep
      constructor
      · omega
      · intro heq
        omega

theorem mergePassRevLoop_sum :
    ∀ (i : Nat) (l : List Nat), (mergePassRevLoop l i).1.sum = l.sum := by
  intro i
  induction i with
  | zero => intro l; rfl
  | succ i ih =>
    intro l
    rw [mergePassRevLoop]
    dsimp only
    rw [ih, mergeAtRev_sum]

theorem mergePassRevLoop_length :
    ∀ (i : Nat) (l : List Nat), (mergePassRevLoop l i).1.length = l.length := by
  intro i
  induction i with
  | zero => intro l; rfl
  | succ i ih =>
    intro l
    rw [mergePassRevLoop]
    dsimp only
    rw [ih, mergeAtRev_length]

theorem mergePassRevLoop_countP :
    ∀ (i : Nat) (l : List Nat),
      (mergePassRevLoop l i).1.countP (fun v => v != 0)
          ≤ l.countP (fun v => v != 0)
      ∧ ((mergePassRevLoop l i).1.countP (fun v => v != 0)
            = l.countP (fun v => v != 0)
          → (mergePassRevLoop l i).2 = 0) := by
  intro i
  induction i with
  | zero => intro l; exact ⟨Nat.le_refl _, fun _ => rfl⟩
  | succ i ih =>
    intro l
    rw [mergePassRevLoop]
    dsimp only
    have hstep := mergeAtRev_countP l i
    have hih := ih (mergeAtRev l i).1
    by_cases hP : (mergeAtRev l i).2 = 0
    · rw [if_pos hP] at hstep
      constructor
      · omega
      · intro heq
        have : (mergePassRevLoop (mergeAtRev l i).1 i).2 = 0 := by
          apply hih.2
          omega
        omega
    · rw [if_neg hP] at hstep
      constructor
      · omega
      · intro heq
        omega

/-! Line-level properties of the four per-line move operations. -/

theorem mergePassFwd_sum (n : Nat) (l : List Nat) : (mergePassFwd n l).1.sum = l.sum :=
  mergePassFwdLoop_sum n n l 0

theorem mergePassFwd_length (n : Nat) (l : List Nat) :
    (mergePassFwd n l).1.length = l.length :=
  mergePassFwdLoop_length n n l 0

theorem mergePassRev_sum (n : Nat) (l : List Nat) : (mergePassRev n l).1.sum = l.sum :=
  mergePassRevLoop_sum n l

theorem mergePassRev_length (n : Nat) (l : List Nat) :
    (mergePassRev n l).1.length = l.length :=
  mergePassRevLoop_length n l

theorem moveRowLeft_sum (n : Nat) (l : List Nat) : (moveRowLeft n l).1.sum = l.sum := by
  have h1 : (moveRowLeft n l).1 = move_zeroes_end (mergePassFwd n l).1 := rfl
  rw [h1, (move_zeroes_end_perm _).sum_eq]
  exact mergePassFwd_sum n l

theorem moveRowLeft_noop_score (n : Nat) (l : List Nat)
    (h : (moveRowLeft n l).1 = l) : (moveRowLeft n l).2 = 0 := by
  refine (mergePassFwdLoop_countP n n l 0).2 ?_
  have hperm := (move_zeroes_end_perm (mergePassFwd n l).1).countP_eq (fun v => v != 0)
  rw [show move_zeroes_end (mergePassFwd n l).1 = l from h] at hperm
  exact hperm.symm

theorem moveRowRight_sum (n : Nat) (l : List Nat) : (moveRowRight n l).1.sum = l.sum := by
  have h1 : (moveRowRight n l).1 = move_zeroes_start (mergePassRev n l).1 := rfl
  rw [h1, (move_zeroes_start_perm _).sum_eq]
  exact mergePassRev_sum n l

theorem moveRowRight_noop_score (n : Nat) (l : List Nat)
    (h : (moveRowRight n l).1 = l) : (moveRowRight n l).2 = 0 := by
  refine (mergePassRevLoop_countP n l).2 ?_
  have hperm := (move_zeroes_start_perm (mergePassRev n l).1).countP_eq (fun v => v != 0)
  rw [show move_zeroes_start (mergePassRev n l).1 = l from h] at hperm
  exact hperm.symm

theorem colUpFn_sum (n : Nat) (col : List Nat) : (colUpFn n col).1.sum = col.sum := by
  have h1 : (colUpFn n col).1 = compactFwd n (mergePassFwd n col).1 := rfl
  rw [h1, (compactFwd_perm n _).sum_eq]
  exact mergePassFwd_sum n col

theorem colUpFn_length (n : Nat) (col : List Nat) :
    (colUpFn n col).1.length = col.length := by
  have h1 : (colUpFn n col).1 = compactFwd n (mergePassFwd n col).1 := rfl
  rw [h1, (compactFwd_perm n _).length_eq]
  exact mergePassFwd_length n col

theorem colUpFn_noop_score (n : Nat) (col : List Nat)
    (h : (colUpFn n col).1 = col) : (colUpFn n col).2 = 0 := by
  refine (mergePassFwdLoop_countP n n col 0).2 ?_
  have hperm := (compactFwd_perm n (mergePassFwd n col).1).countP_eq (fun v => v != 0)
  rw [show compactFwd n (mergePassFwd n col).1 = col from h] at hperm
  exact hperm.symm

theorem colDownFn_sum (n : Nat) (col : List Nat) (hl : col.length = n) :
    (colDownFn n col).1.sum = col.sum := by
  have h1 : (colDownFn n col).1 = compactRev n (mergePassRev n col).1 := rfl
  rw [h1, (compactRev_perm ((mergePassRev_length n col).trans hl)).sum_eq]
  exact mergePassRev_sum n col

theorem colDownFn_length (n : Nat) (col : List Nat) (hl : col.length = n) :
    (colDownFn n col).1.length = col.length := by
  have h1 : (colDownFn n col).1 = compactRev n (mergePassRev n col).1 := rfl
  rw [h1, (compactRev_perm ((mergePassRev_length n col).trans hl)).length_eq]
  exact mergePassRev_length n col

theorem colDownFn_noop_score (n : Nat) (col : List Nat) (hl : col.length = n)
    (h : (colDownFn n col).1 = col) : (colDownFn n col).2 = 0 := by
  refine (mergePassRevLoop_countP n col).2 ?_
  have hperm := (compactRev_perm
    ((mergePassRev_length n col).trans hl)).countP_eq (fun v => v != 0)
  rw [show compactRev n (mergePassRev n col).1 = col from h] at hperm
  exact hperm.symm

/-! Board-level helpers. -/

theorem Game.eq_of_fields {g1 g2 : Game} (hc : g1.config = g2.config)
    (hb : g1.board = g2.board) (hs : g1.score = g2.score) : g1 = g2 := by
  cases g1
  cases g2
  cases hc
  cases hb
  cases hs
  rfl

theorem map_eq_self_of_eq {α : Type} {l : List α} {f : α → α}
    (h : l.map f = l) : ∀ x ∈ l, f x = x := by
  induction l with
  | nil => intro x hx; cases hx
  | cons a t ih =>
    rw [List.map_cons, List.cons_eq_cons] at h
    intro x hx
    rcases List.mem_cons.1 hx with rfl | hxt
    · exact h.1
    · exact ih h.2 x hxt

theorem boardSum_cons (r : List Nat) (t : Board) :
    boardSum (r :: t) = r.sum + boardSum t := by
  simp [boardSum]

theorem boardSum_map_rows (b : Board) (f : List Nat → List Nat)
    (h : ∀ row ∈ b, (f row).sum = row.sum) : boardSum (b.map f) = boardSum b := by
  induction b with
  | nil => rfl
  | cons r t ih =>
    rw [List.map_cons, boardSum_cons, boardSum_cons, h r (List.mem_cons_self r t),
      ih (fun row hr => h row (List.mem_cons_of_mem r hr))]

/-! Board-level facts about the row moves. -/

theorem move_left_boardSum (g : Game) :
    boardSum (move_left g).board = boardSum g.board :=
  boardSum_map_rows _ _ (fun row _ => moveRowLeft_sum g.config.width row)

theorem move_right_boardSum (g : Game) :
    boardSum (move_right g).board = boardSum g.board :=
  boardSum_map_rows _ _ (fun row _ => moveRowRight_sum g.config.width row)

theorem move_left_noop (g : Game) (h : (move_left g).board = g.board) :
    move_left g = g := by
  refine Game.eq_of_fields rfl h ?_
  have hrows := map_eq_self_of_eq h
  have hzero : ∀ x ∈ g.board.map (fun row => (moveRowLeft g.config.width row).2), x = 0 := by
    intro x hx
    rw [List.mem_map] at hx
    obtain ⟨row, hrow, rfl⟩ := hx
    exact moveRowLeft_noop_score _ _ (hrows row hrow)
  show g.score + (g.board.map (fun row => (moveRowLeft g.config.width row).2)).sum = g.score
  rw [List.sum_eq_zero hzero, Nat.add_zero]

theorem move_right_noop (g : Game) (h : (move_right g).board = g.board) :
    move_right g = g := by
  refine Game.eq_of_fields rfl h ?_
  have hrows := map_eq_self_of_eq h
  have hzero : ∀ x ∈ g.board.map (fun row => (moveRowRight g.config.width row).2), x = 0 := by
    intro x hx
    rw [List.mem_map] at hx
    obtain ⟨row, hrow, rfl⟩ := hx
    exact moveRowRight_noop_score _ _ (hrows row hrow)
  show g.score + (g.board.map (fun row => (moveRowRight g.config.width row).2)).sum = g.score
  rw [List.sum_eq_zero hzero, Nat.add_zero]

/-! Column access and update. -/

theorem getCol_length (b : Board) (c : Nat) : (getCol b c).length = b.length := by
  simp [getCol]

theorem setColumn_length {b : Board} {c : Nat} {col : List Nat}
    (h : col.length = b.length) : (setColumn b c col).length = b.length := by
  simp [setColumn, h]

theorem getCol_setColumn_ne {b : Board} {c c' : Nat} {col : List Nat}
    (h : col.length = b.length) (hne : c' ≠ c) :
    getCol (setColumn b c col) c' = getCol b c' := by
  induction b generalizing col with
  | nil => simp [setColumn, getCol]
  | cons r t ih =>
    cases col with
    | nil => simp at h
    | cons v cs =>
      show (r.set c v).getD c' 0 :: getCol (setColumn t c cs) c'
        = r.getD c' 0 :: getCol t c'
      rw [getD_set_ne (fun hcc => hne hcc.symm), ih (by simpa using h)]

theorem getCol_setColumn_self {b : Board} {c : Nat} {col : List Nat}
    (h : col.length = b.length) (hw : ∀ row ∈ b, c < row.length) :
    getCol (setColumn b c col) c = col := by
  induction b generalizing col with
  | nil =>
    cases col with
    | nil => rfl
    | cons v cs => simp at h
  | cons r t ih =>
    cases col with
    | nil => simp at h
    | cons v cs =>
      show (r.set c v).getD c 0 :: getCol (setColumn t c cs) c = v :: cs
      rw [getD_set_self (hw r (List.mem_cons_self r _)) v,
        ih (by simpa using h) (fun row hr => hw row (List.mem_cons_of_mem r hr))]

theorem boardSum_setColumn {b : Board} {c : Nat} {col : List Nat}
    (h : col.length = b.length) (hw : ∀ row ∈ b, c < row.length) :
    boardSum (setColumn b c col) + (getCol b c).sum = boardSum b + col.sum := by
  induction b generalizing col with
  | nil =>
    cases col with
    | nil => rfl
    | cons v cs => simp at h
  | cons r t ih =>
    cases col with
    | nil => simp at h
    | cons v cs =>
      have hstep := sum_set_add (hw r (List.mem_cons_self r _)) v
      have hrec := ih (by simpa using h) (fun row hr => hw row (List.mem_cons_of_mem r hr))
      show boardSum ((r.set c v) :: setColumn t c cs) + (r.getD c 0 + (getCol t c).sum)
        = boardSum (r :: t) + (v + cs.sum)
      rw [boardSum_cons, boardSum_cons]
      omega

theorem setColumn_row_lengths {b : Board} {c : Nat} {col : List Nat} {w : Nat}
    (h : col.length = b.length) (hw : ∀ row ∈ b, row.length = w) :
    ∀ row ∈ setColumn b c col, row.length = w := by
  induction b generalizing col with
  | nil => intro row hr; simp [setColumn] at hr
  | cons r t ih =>
    cases col with
    | nil => simp at h
    | cons v cs =>
      intro row hr
      rcases List.mem_cons.1 hr with rfl | hrt
      · rw [List.length_set]
        exact hw r (List.mem_cons_self r t)
      · exact ih (by simpa using h)
          (fun row hrow => hw row (List.mem_cons_of_mem r hrow)) row hrt

/-! Characterisation of the column-wise fold shared by `move_up` and
`move_down`: every listed column is replaced by its transform computed from
the original board, all other columns are untouched, total mass is
preserved, and the score collects the per-column deltas. -/

theorem colFold_spec (f : Nat → List Nat → List Nat × Nat)
    (hflen : ∀ n col, col.length = n → (f n col).1.length = col.length)
    (hfsum : ∀ n col, col.length = n → (f n col).1.sum = col.sum) :
    ∀ (cs : List Nat) (g : Game), WellFormed g → (∀ c ∈ cs, c < g.config.width) →
      cs.Nodup →
      (cs.foldl (colStep f) g).config = g.config ∧
      WellFormed (cs.foldl (colStep f) g) ∧
      boardSum (cs.foldl (colStep f) g).board = boardSum g.board ∧
      (∀ c ∈ cs, getCol (cs.foldl (colStep f) g).board c
        = (f g.config.height (getCol g.board c)).1) ∧
      (∀ c, c ∉ cs → getCol (cs.foldl (colStep f) g).board c = getCol g.board c) ∧
      (cs.foldl (colStep f) g).score
        = g.score + (cs.map (fun c => (f g.config.height (getCol g.board c)).2)).sum := by
  intro cs
  induction cs with
  | nil =>
    intro g hwf _ _
    exact ⟨rfl, hwf, rfl, by simp, fun c _ => rfl, by simp⟩
  | cons c rest ih =>
    intro g hwf hcs hnd
    have hb : g.board.length = g.config.height := hwf.1
    have hrows : ∀ row ∈ g.board, row.length = g.config.width := hwf.2
    have hcw : c < g.config.width := hcs c (List.mem_cons_self c rest)
    have hcollen : (getCol g.board c).length = g.config.height := by
      rw [getCol_length]; exact hb
    have hp1 : (f g.config.height (getCol g.board c)).1.length
        = (getCol g.board c).length := hflen _ _ hcollen
    have hp1b : (f g.config.height (getCol g.board c)).1.length = g.board.length := by
      rw [hp1, getCol_length]
    have hcrow : ∀ row ∈ g.board, c < row.length := by
      intro row hr
      rw [hrows row hr]
      exact hcw
    have hwf1 : WellFormed (colStep f g c) := by
      constructor
      · show (setColumn g.board c _).length = g.config.height
        rw [setColumn_length hp1b]
        exact hb
      · exact setColumn_row_lengths hp1b hrows
    have hsum1 : boardSum (colStep f g c).board = boardSum g.board := by
      have h1 := boardSum_setColumn hp1b hcrow
      have h2 := hfsum _ _ hcollen
      show boardSum (setColumn g.board c _) = boardSum g.board
      omega
    have hself : getCol (colStep f g c).board c
        = (f g.config.height (getCol g.board c)).1 :=
      getCol_setColumn_self hp1b hcrow
    have hother : ∀ c', c' ≠ c →
        getCol (colStep f g c).board c' = getCol g.board c' := by
      intro c' hne
      exact getCol_setColumn_ne hp1b hne
    have hcnotin : c ∉ rest := (List.nodup_cons.1 hnd).1
    have hndr : rest.Nodup := (List.nodup_cons.1 hnd).2
    have hcsr : ∀ c' ∈ rest, c' < (colStep f g c).config.width := by
      intro c' hc'
      exact hcs c' (List.mem_cons_of_mem c hc')
    obtain ⟨ihc, ihwf, ihsum, ihin, ihout, ihscore⟩ :=
      ih (colStep f g c) hwf1 hcsr hndr
    have hfold : (c :: rest).foldl (colStep f) g = rest.foldl (colStep f) (colStep f g c) :=
      rfl
    rw [hfold]
    refine ⟨ihc, ihwf, ihsum.trans hsum1, ?_, ?_, ?_⟩
    · intro c' hc'
      rcases List.mem_cons.1 hc' with rfl | hrest
      · rw [ihout c' hcnotin]
        exact hself
      · have hne : c' ≠ c := fun he => hcnotin (he ▸ hrest)
        rw [ihin c' hrest]
        show (f (colStep f g c).config.height (getCol (colStep f g c).board c')).1
          = (f g.config.height (getCol g.board c')).1
        rw [hother c' hne]
        rfl
    · intro c' hc'
      have hne : c' ≠ c := fun he => hc' (he ▸ List.mem_cons_self c rest)
      have hnr : c' ∉ rest := fun hr => hc' (List.mem_cons_of_mem c hr)
      rw [ihout c' hnr]
      exact hother c' hne
    · rw [ihscore]
      have hmap : rest.map
            (fun c' => (f (colStep f g c).config.height (getCol (colStep f g c).board c')).2)
          = rest.map (fun c' => (f g.config.height (getCol g.board c')).2) := by
        apply List.map_congr_left
        intro c' hc'
        have hne : c' ≠ c := fun he => hcnotin (he ▸ hc')
        show (f (colStep f g c).config.height (getCol (colStep f g c).board c')).2
          = (f g.config.height (getCol g.board c')).2
        rw [hother c' hne]
        rfl
      rw [hmap]
      show g.score + (f g.config.height (getCol g.board c)).2 + _ = _
      rw [List.map_cons, List.sum_cons]
      omega

theorem move_up_spec (g : Game) (hwf : WellFormed g) :
    (move_up g).config = g.config ∧ WellFormed (move_up g) ∧
    boardSum (move_up g).board = boardSum g.board ∧
    (∀ c ∈ List.range g.config.width, getCol (move_up g).board c
      = (colUpFn g.config.height (getCol g.board c)).1) ∧
    (∀ c, c ∉ List.range g.config.width → getCol (move_up g).board c = getCol g.board c) ∧
    (move_up g).score = g.score + ((List.range g.config.width).map
      (fun c => (colUpFn g.config.height (getCol g.board c)).2)).sum :=
  colFold_spec colUpFn (fun n col _ => colUpFn_length n col)
    (fun n col _ => colUpFn_sum n col)
    (List.range g.config.width) g hwf (fun _ hc => List.mem_range.1 hc)
    (List.nodup_range _)

theorem move_down_spec (g : Game) (hwf : WellFormed g) :
    (move_down g).config = g.config ∧ WellFormed (move_down g) ∧
    boardSum (move_down g).board = boardSum g.board ∧
    (∀ c ∈ List.range g.config.width, getCol (move_down g).board c
      = (colDownFn g.config.height (getCol g.board c)).1) ∧
    (∀ c, c ∉ List.range g.config.width → getCol (move_down g).board c = getCol g.board c) ∧
    (move_down g).score = g.score + ((List.range g.config.width).map
      (fun c => (colDownFn g.config.height (getCol g.board c)).2)).sum :=
  colFold_spec colDownFn (fun n col hl => colDownFn_length n col hl)
    (fun n col hl => colDownFn_sum n col hl)
    (List.range g.config.width) g hwf (fun _ hc => List.mem_range.1 hc)
    (List.nodup_range _)

theorem move_up_noop (g : Game) (hwf : WellFormed g)
    (h : (move_up g).board = g.board) : move_up g = g := by
  obtain ⟨hc, _, _, hin, _, hscore⟩ := move_up_spec g hwf
  refine Game.eq_of_fields hc h ?_
  rw [hscore]
  have hzero : ∀ x ∈ (List.range g.config.width).map
      (fun c => (colUpFn g.config.height (getCol g.board c)).2), x = 0 := by
    intro x hx
    rw [List.mem_map] at hx
    obtain ⟨c, hcr, rfl⟩ := hx
    apply colUpFn_noop_score
    rw [← hin c hcr, h]
  rw [List.sum_eq_zero hzero, Nat.add_zero]

theorem move_down_noop (g : Game) (hwf : WellFormed g)
    (h : (move_down g).board = g.board) : move_down g = g := by
  obtain ⟨hc, _, _, hin, _, hscore⟩ := move_down_spec g hwf
  refine Game.eq_of_fields hc h ?_
  rw [hscore]
  have hzero : ∀ x ∈ (List.range g.config.width).map
      (fun c => (colDownFn g.config.height (getCol g.board c)).2), x = 0 := by
    intro x hx
    rw [List.mem_map] at hx
    obtain ⟨c, hcr, rfl⟩ := hx
    apply colDownFn_noop_score
    · rw [getCol_length]
      exact hwf.1
    · rw [← hin c hcr, h]
  rw [List.sum_eq_zero hzero, Nat.add_zero]

theorem dirMove_noop (g : Game) (k : Keypress) (hwf : WellFormed g)
    (h : (dirMove k g).board = g.board) : dirMove k g = g := by
  cases k with
  | Left => exact move_left_noop g h
  | Right => exact move_right_noop g h
  | Up => exact move_up_noop g hwf h
  | Down => exact move_down_noop g hwf h
  | Reset => rfl
  | Quit => rfl

/-! The `equal_boards` test decides cell-for-cell equality of boards. -/

theorem equal_boards_iff (a b : Board) : equal_boards a b = true ↔ a = b := by
  constructor
  · intro h
    unfold equal_boards at h
    rw [Bool.and_eq_true] at h
    obtain ⟨hlen, hrows⟩ := h
    rw [beq_iff_eq] at hlen
    rw [List.all_eq_true] at hrows
    apply List.ext_getElem hlen
    intro i h1 h2
    have hr := hrows i (List.mem_range.2 h1)
    rw [Bool.and_eq_true] at hr
    obtain ⟨hrlen, hcells⟩ := hr
    rw [beq_iff_eq] at hrlen
    rw [List.all_eq_true] at hcells
    have hai : a.getD i [] = a[i] := by
      rw [List.getD_eq_getElem?_getD, List.getElem?_eq_getElem h1]
      rfl
    have hbi : b.getD i [] = b[i] := by
      rw [List.getD_eq_getElem?_getD, List.getElem?_eq_getElem h2]
      rfl
    rw [hai] at hrlen hcells
    rw [hbi] at hrlen hcells
    apply List.ext_getElem hrlen
    intro m m1 m2
    have hlen2 : (List.getD a i []).length = a[i].length := by rw [hai]
    have hc := hcells m (List.mem_range.2 (by omega))
    rw [beq_iff_eq] at hc
    rw [List.getD_eq_getElem?_getD, List.getElem?_eq_getElem m1] at hc
    rw [List.getD_eq_getElem?_getD, List.getElem?_eq_getElem m2] at hc
    exact hc
  · intro h
    subst h
    unfold equal_boards
    rw [Bool.and_eq_true]
    refine ⟨beq_self_eq_true _, ?_⟩
    rw [List.all_eq_true]
    intro i _
    rw [Bool.and_eq_true]
    refine ⟨beq_self_eq_true _, ?_⟩
    rw [List.all_eq_true]
    intro m _
    exact beq_self_eq_true _

theorem equal_boards_self (a : Board) : equal_boards a a = true :=
  (equal_boards_iff a a).2 rfl

/-! The imperative `game_over` scan computes the declarative game-over
condition. -/

theorem allRange_iff (n : Nat) (p : Nat → Bool) :
    (List.range n).all p = true ↔ ∀ i < n, p i = true := by
  rw [List.all_eq_true]
  constructor
  · intro h i hi
    exact h i (List.mem_range.2 hi)
  · intro h x hx
    exact h x (List.mem_range.1 hx)

theorem bool_not_true_iff (b : Bool) : ((!b) = true) ↔ b = false := by
  cases b <;> simp

theorem lineHasMergeFwd_false_iff (n : Nat) (l : List Nat) :
    lineHasMergeFwd n l = false ↔ NoMergeFwdP n l := by
  rw [Bool.eq_false_iff]
  unfold lineHasMergeFwd NoMergeFwdP
  rw [ne_eq, List.any_eq_true]
  push_neg
  constructor
  · intro h i hi hnz j hfj he
    have hcontra := h i (List.mem_range.2 hi)
    apply hcontra
    rw [Bool.and_eq_true]
    refine ⟨by simpa using hnz, ?_⟩
    simp only [hfj]
    rw [beq_iff_eq]
    exact he
  · intro hP i hir hcond
    rw [Bool.and_eq_true] at hcond
    obtain ⟨h1, h2⟩ := hcond
    cases hm : firstNonzeroFrom n l (i+1) with
    | none => rw [hm] at h2; cases h2
    | some j =>
      rw [hm] at h2
      rw [beq_iff_eq] at h2
      exact hP i (List.mem_range.1 hir) (by simpa using h1) j hm h2

theorem lineHasMergeRev_false_iff (n : Nat) (l : List Nat) :
    lineHasMergeRev n l = false ↔ NoMergeRevP n l := by
  rw [Bool.eq_false_iff]
  unfold lineHasMergeRev NoMergeRevP
  rw [ne_eq, List.any_eq_true]
  push_neg
  constructor
  · intro h i hi hnz j hfj he
    have hcontra := h i (List.mem_range.2 hi)
    apply hcontra
    rw [Bool.and_eq_true]
    refine ⟨by simpa using hnz, ?_⟩
    simp only [hfj]
    rw [beq_iff_eq]
    exact he
  · intro hP i hir hcond
    rw [Bool.and_eq_true] at hcond
    obtain ⟨h1, h2⟩ := hcond
    cases hm : firstNonzeroBelow l i with
    | none => rw [hm] at h2; cases h2
    | some j =>
      rw [hm] at h2
      rw [beq_iff_eq] at h2
      exact hP i (List.mem_range.1 hir) (by simpa using h1) j hm h2

theorem game_over_iff (g : Game) : game_over g = true ↔ GameOverP g := by
  unfold game_over GameOverP
  rw [Bool.and_eq_true, Bool.and_eq_true, Bool.and_eq_true, Bool.and_eq_true]
  constructor
  · intro ⟨⟨⟨⟨hz, hlf⟩, hlr⟩, huf⟩, hur⟩
    refine ⟨?_, ?_, ?_⟩
    · intro i hi j hj
      have := (allRange_iff _ _).1 hz i hi
      have := (allRange_iff _ _).1 this j hj
      simpa using this
    · intro row hrow
      constructor
      · exact (lineHasMergeFwd_false_iff _ _).1
          ((bool_not_true_iff _).1 ((allRange_iff _ _).1 hlf row hrow))
      · exact (lineHasMergeRev_false_iff _ _).1
          ((bool_not_true_iff _).1 ((allRange_iff _ _).1 hlr row hrow))
    · intro column hcol
      constructor
      · exact (lineHasMergeFwd_false_iff _ _).1
          ((bool_not_true_iff _).1 ((allRange_iff _ _).1 huf column hcol))
      · exact (lineHasMergeRev_false_iff _ _).1
          ((bool_not_true_iff _).1 ((allRange_iff _ _).1 hur column hcol))
  · intro ⟨hz, hrow, hcol⟩
    refine ⟨⟨⟨⟨?_, ?_⟩, ?_⟩, ?_⟩, ?_⟩
    · rw [allRange_iff]
      intro i hi
      rw [allRange_iff]
      intro j hj
      simpa using hz i hi j hj
    · rw [allRange_iff]
      intro row hr
      rw [bool_not_true_iff]
      exact (lineHasMergeFwd_false_iff _ _).2 (hrow row hr).1
    · rw [allRange_iff]
      intro row hr
      rw [bool_not_true_iff]
      exact (lineHasMergeRev_false_iff _ _).2 (hrow row hr).2
    · rw [allRange_iff]
      intro column hc
      rw [bool_not_true_iff]
      exact (lineHasMergeFwd_false_iff _ _).2 (hcol column hc).1
    · rw [allRange_iff]
      intro column hc
      rw [bool_not_true_iff]
      exact (lineHasMergeRev_false_iff _ _).2 (hcol column hc).2

/-! Identity behaviour of `move_right` on lines already compacted to the
right with no merge available. -/

theorem mergeAtRev_id_of_noMerge {n : Nat} {l : List Nat} {i : Nat} (hi : i < n)
    (h : lineHasMergeRev n l = false) : mergeAtRev l i = (l, 0) := by
  unfold mergeAtRev
  by_cases h0 : l.getD i 0 = 0
  · rw [if_pos h0]
  · rw [if_neg h0]
    cases hm : firstNonzeroBelow l i with
    | none => rfl
    | some j =>
      dsimp only
      by_cases he : l.getD i 0 = l.getD j 0
      · exfalso
        exact (lineHasMergeRev_false_iff n l).1 h i hi h0 j hm he
      · rw [if_neg he]

theorem mergePassRevLoop_id (n : Nat) (l : List Nat)
    (h : lineHasMergeRev n l = false) :
    ∀ i, i ≤ n → mergePassRevLoop l i = (l, 0) := by
  intro i
  induction i with
  | zero => intro _; rfl
  | succ i ih =>
    intro hin
    rw [mergePassRevLoop]
    rw [mergeAtRev_id_of_noMerge (by omega) h]
    simp [ih (by omega)]

theorem swapCells_self (a : List Nat) (i : Nat) : swapCells a i i = a := by
  unfold swapCells
  rw [List.set_set, set_getD_self]

theorem compactRevLoop_id_zeros (l : List Nat) :
    ∀ i j, (∀ k < i, l.getD k 0 = 0) → compactRevLoop l j i = l := by
  intro i
  induction i with
  | zero => intro j _; rfl
  | succ i ih =>
    intro j hz
    rw [compactRevLoop]
    rw [if_neg (fun hco => hco (hz i (Nat.lt_succ_self i)))]
    exact ih j (fun k hk => hz k (by omega))

theorem compactRevLoop_id_compacted (l : List Nat) (hc : CompactedRight l) :
    ∀ i, i ≤ l.length → compactRevLoop l (i - 1) i = l := by
  intro i
  induction i with
  | zero => intro _; rfl
  | succ i ih =>
    intro hle
    rw [compactRevLoop]
    by_cases h0 : l.getD i 0 = 0
    · rw [if_neg (fun hco => hco h0)]
      refine compactRevLoop_id_zeros l i (i + 1 - 1) ?_
      intro k hk
      by_contra hknz
      exact (hc k (by omega) i (by omega) (by omega) hknz) h0
    · rw [if_pos h0]
      rw [show i + 1 - 1 = i from rfl, swapCells_self]
      exact ih (by omega)

theorem move_zeroes_start_id (l : List Nat) (hc : CompactedRight l) :
    move_zeroes_start l = l := by
  unfold move_zeroes_start
  by_cases he : l.isEmpty
  · rw [if_pos he]
  · rw [if_neg he]
    exact compactRevLoop_id_compacted l hc l.length (Nat.le_refl _)

theorem moveRowRight_id (n : Nat) (l : List Nat) (hc : CompactedRight l)
    (hnm : lineHasMergeRev n l = false) : moveRowRight n l = (l, 0) := by
  have hpass : mergePassRev n l = (l, 0) := mergePassRevLoop_id n l hnm n (Nat.le_refl n)
  unfold moveRowRight
  rw [hpass]
  dsimp only
  rw [move_zeroes_start_id l hc]

theorem move_right_id (g : Game)
    (hcomp : ∀ row ∈ g.board, CompactedRight row)
    (hnm : ∀ row ∈ g.board, lineHasMergeRev g.config.width row = false) :
    move_right g = g := by
  have hfn : ∀ row ∈ g.board,
      (fun row => (moveRowRight g.config.width row).1) row = id row := by
    intro row hr
    show (moveRowRight g.config.width row).1 = row
    rw [moveRowRight_id _ _ (hcomp row hr) (hnm row hr)]
  have hboard : (move_right g).board = g.board := by
    show g.board.map (fun row => (moveRowRight g.config.width row).1) = g.board
    rw [List.map_congr_left hfn, List.map_id]
  exact move_right_noop g hboard

/-! Dispatch behaviour of `play_move`. -/

theorem play_move_gameOver (g : Game) (k : Keypress) (r : Nat) (four : Bool)
    (h : game_over g = true) : play_move g k r four = (g, GameResult.GameOver) := by
  unfold play_move
  rw [h]
  rfl

theorem ite_equal_boards (g1 : Game) (b : Board) (r : Nat) (four : Bool) :
    (if equal_boards g1.board b then (g1, GameResult.NoMove)
     else (add_random_tile g1 r four, GameResult.NextMove))
    = if g1.board = b then (g1, GameResult.NoMove)
      else (add_random_tile g1 r four, GameResult.NextMove) := by
  by_cases hb : g1.board = b
  · rw [if_pos hb, if_pos ((equal_boards_iff _ _).2 hb)]
  · rw [if_neg hb, if_neg (fun ht => hb ((equal_boards_iff _ _).1 ht))]

theorem play_move_dir (g : Game) (k : Keypress) (r : Nat) (four : Bool)
    (hover : game_over g = false) (hk : Directional k) :
    play_move g k r four =
      if (dirMove k g).board = g.board then (dirMove k g, GameResult.NoMove)
      else (add_random_tile (dirMove k g) r four, GameResult.NextMove) := by
  unfold play_move
  rw [hover, if_neg Bool.false_ne_true]
  cases k with
  | Quit => rcases hk with h | h | h | h <;> cases h
  | Reset => rcases hk with h | h | h | h <;> cases h
  | Left => exact ite_equal_boards (dirMove Keypress.Left g) g.board r four
  | Right => exact ite_equal_boards (dirMove Keypress.Right g) g.board r four
  | Up => exact ite_equal_boards (dirMove Keypress.Up g) g.board r four
  | Down => exact ite_equal_boards (dirMove Keypress.Down g) g.board r four

/-! Cell-level behaviour of `setCell` and the free-tile scan. -/

theorem getD_set_self_gen {α : Type} {l : List α} {i : Nat} (h : i < l.length)
    (v d : α) : (l.set i v).getD i d = v := by
  rw [List.getD_eq_getElem?_getD, List.getElem?_set_self h]
  rfl

theorem getD_set_ne_gen {α : Type} {l : List α} {i k : Nat} (h : i ≠ k)
    (v d : α) : (l.set i v).getD k d = l.getD k d := by
  rw [List.getD_eq_getElem?_getD, List.getElem?_set_ne h, ← List.getD_eq_getElem?_getD]

theorem getCell_setCell_self {b : Board} {i j : Nat} (hi : i < b.length)
    (hj : j < (b.getD i []).length) (v : Nat) :
    getCell (setCell b i j v) i j = v := by
  unfold getCell setCell
  rw [getD_set_self_gen hi, getD_set_self hj]

theorem getCell_setCell_ne {b : Board} {i j i' j' : Nat}
    (hne : ¬(i' = i ∧ j' = j)) (v : Nat) :
    getCell (setCell b i j v) i' j' = getCell b i' j' := by
  unfold getCell setCell
  by_cases hii : i' = i
  · subst hii
    have hjj : j ≠ j' := fun he => hne ⟨rfl, he.symm⟩
    by_cases hib : i' < b.length
    · rw [getD_set_self_gen hib, getD_set_ne hjj]
    · rw [List.set_eq_of_length_le (by omega)]
  · rw [getD_set_ne_gen (fun he => hii he.symm)]

theorem mem_free_tiles (g : Game) (p : Position) :
    p ∈ free_tiles g ↔ p.1 < g.config.height ∧ p.2 < g.config.width ∧
      getCell g.board p.1 p.2 = 0 := by
  unfold free_tiles
  rw [List.mem_flatMap]
  constructor
  · rintro ⟨i, hi, hp⟩
    rw [List.mem_filterMap] at hp
    obtain ⟨j, hj, hpj⟩ := hp
    by_cases hz : getCell g.board i j = 0
    · rw [if_pos hz] at hpj
      have hpe : p = (i, j) := Option.some_inj.1 hpj.symm
      subst hpe
      exact ⟨List.mem_range.1 hi, List.mem_range.1 hj, hz⟩
    · rw [if_neg hz] at hpj
      cases hpj
  · rintro ⟨h1, h2, h3⟩
    refine ⟨p.1, List.mem_range.2 h1, ?_⟩
    rw [List.mem_filterMap]
    refine ⟨p.2, List.mem_range.2 h2, ?_⟩
    rw [if_pos h3]

theorem add_random_tile_of_full (g : Game) (r : Nat) (four : Bool)
    (h : ∀ i < g.config.height, ∀ j < g.config.width, getCell g.board i j ≠ 0) :
    add_random_tile g r four = g := by
  have hfree : free_tiles g = [] := by
    rw [List.eq_nil_iff_forall_not_mem]
    intro p hp
    obtain ⟨h1, h2, h3⟩ := (mem_free_tiles g p).1 hp
    exact h p.1 h1 p.2 h2 h3
  unfold add_random_tile
  rw [hfree]
  rfl

theorem add_random_tile_spec (g : Game) (r : Nat) (four : Bool)
    (hwf : WellFormed g) (hr : r < (free_tiles g).length) :
    ∃ i j, i < g.config.height ∧ j < g.config.width ∧ getCell g.board i j = 0 ∧
      getCell (add_random_tile g r four).board i j = random_tile four ∧
      (∀ i' j', ¬(i' = i ∧ j' = j) →
        getCell (add_random_tile g r four).board i' j' = getCell g.board i' j') ∧
      (add_random_tile g r four).score = g.score ∧
      (add_random_tile g r four).config = g.config := by
  have hne : ¬((free_tiles g).length = 0) := by omega
  have hgd : (free_tiles g).getD r (0, 0) = (free_tiles g)[r] := by
    rw [List.getD_eq_getElem?_getD, List.getElem?_eq_getElem hr]
    rfl
  have hmem : (free_tiles g).getD r (0, 0) ∈ free_tiles g := by
    rw [hgd]
    exact List.getElem_mem hr
  obtain ⟨h1, h2, h3⟩ := (mem_free_tiles g _).1 hmem
  have hresult : add_random_tile g r four
      = { g with board := setCell g.board ((free_tiles g).getD r (0, 0)).1
                   ((free_tiles g).getD r (0, 0)).2 (random_tile four) } := by
    unfold add_random_tile
    rw [if_neg hne]
  refine ⟨((free_tiles g).getD r (0, 0)).1, ((free_tiles g).getD r (0, 0)).2,
    h1, h2, h3, ?_, ?_, ?_, ?_⟩
  · rw [hresult]
    refine getCell_setCell_self ?_ ?_ (random_tile four)
    · rw [hwf.1]
      exact h1
    · have hrow : (g.board.getD ((free_tiles g).getD r (0, 0)).1 []).length
          = g.config.width := by
        apply hwf.2
        have hlt : ((free_tiles g).getD r (0, 0)).1 < g.board.length := by
          rw [hwf.1]
          exact h1
        rw [List.getD_eq_getElem?_getD, List.getElem?_eq_getElem hlt]
        exact List.getElem_mem hlt
      rw [hrow]
      exact h2
  · intro i' j' hnij
    rw [hresult]
    exact getCell_setCell_ne hnij (random_tile four)
  · rw [hresult]
  · rw [hresult]

/-! Factory board construction: dimensions, cell values and non-zero count. -/

theorem getD_replicate_gen {α : Type} (n : Nat) (a d : α) (i : Nat) :
    (List.replicate n a).getD i d = if i < n then a else d := by
  induction n generalizing i with
  | zero => simp
  | succ n ih =>
    cases i with
    | zero => simp [List.replicate]
    | succ m =>
      rw [List.replicate, List.getD_cons_succ, ih]
      by_cases hm : m < n
      · rw [if_pos hm, if_pos (by omega)]
      · rw [if_neg hm, if_neg (by omega)]

theorem getCell_emptyBoard (config : BoardConfig) (i j : Nat) :
    getCell (emptyBoard config) i j = 0 := by
  unfold getCell emptyBoard
  rw [getD_replicate_gen]
  by_cases hi : i < config.height
  · rw [if_pos hi, getD_replicate_gen]
    by_cases hj : j < config.width
    · rw [if_pos hj]
    · rw [if_neg hj]
  · rw [if_neg hi]
    rfl

theorem emptyBoard_length (config : BoardConfig) :
    (emptyBoard config).length = config.height := by
  simp [emptyBoard]

theorem emptyBoard_rows (config : BoardConfig) :
    ∀ row ∈ emptyBoard config, row.length = config.width := by
  intro row hr
  rw [List.eq_of_mem_replicate hr]
  simp

theorem getD_map_countP (b : Board) (i : Nat) (hi : i < b.length) :
    (b.map (fun row => row.countP (fun v => v != 0))).getD i 0
      = (b.getD i []).countP (fun v => v != 0) := by
  rw [List.getD_eq_getElem?_getD, List.getElem?_map, List.getElem?_eq_getElem hi,
    List.getD_eq_getElem?_getD, List.getElem?_eq_getElem hi]
  rfl

theorem countP_set_of_zero {l : List Nat} {j : Nat} (hj : j < l.length)
    (hz : l.getD j 0 = 0) {v : Nat} (hv : v ≠ 0) :
    (l.set j v).countP (fun x => x != 0) = l.countP (fun x => x != 0) + 1 := by
  induction l generalizing j with
  | nil => simp at hj
  | cons a t ih =>
    cases j with
    | zero =>
      rw [List.getD_cons_zero] at hz
      subst hz
      have hv' : ((v != 0) = true) := by simpa using hv
      simp [hv']
    | succ m =>
      rw [List.getD_cons_succ] at hz
      have hm : m < t.length := by simpa using hj
      simp only [List.set, List.countP_cons]
      rw [ih hm hz]
      omega

theorem countNonzero_setCell {b : Board} {i j : Nat} (hi : i < b.length)
    (hj : j < (b.getD i []).length) (hz : getCell b i j = 0) {v : Nat} (hv : v ≠ 0) :
    countNonzero (setCell b i j v) = countNonzero b + 1 := by
  unfold countNonzero setCell
  rw [List.map_set]
  have hmi : i < (b.map (fun row => row.countP (fun x => x != 0))).length := by
    simpa using hi
  have hsum := sum_set_add hmi
    (((b.getD i []).set j v).countP (fun x => x != 0))
  rw [getD_map_countP b i hi] at hsum
  have hcnt := countP_set_of_zero hj hz hv
  omega

theorem setCell_length (b : Board) (i j v : Nat) :
    (setCell b i j v).length = b.length := by
  simp [setCell]

theorem setCell_rows {b : Board} {i j v : Nat} {w : Nat}
    (hw : ∀ row ∈ b, row.length = w) :
    ∀ row ∈ setCell b i j v, row.length = w := by
  by_cases hi : i < b.length
  · intro row hr
    rcases List.mem_or_eq_of_mem_set hr with hmem | heq
    · exact hw row hmem
    · subst heq
      rw [List.length_set]
      apply hw
      have hbi : b.getD i [] = b[i] := by
        rw [List.getD_eq_getElem?_getD, List.getElem?_eq_getElem hi]
        rfl
      rw [hbi]
      exact List.getElem_mem hi
  · unfold setCell
    rw [List.set_eq_of_length_le (by omega)]
    exact hw

theorem random_tile_ne_zero (four : Bool) : random_tile four ≠ 0 := by
  cases four <;> simp [random_tile]

theorem random_tile_cases (four : Bool) :
    random_tile four = 2 ∨ random_tile four = 4 := by
  cases four
  · left; rfl
  · right; rfl

theorem row_length_of_wf {b : Board} {W : Nat} (hw : ∀ row ∈ b, row.length = W)
    {i : Nat} (hi : i < b.length) : (b.getD i []).length = W := by
  apply hw
  have hbi : b.getD i [] = b[i] := by
    rw [List.getD_eq_getElem?_getD, List.getElem?_eq_getElem hi]
    rfl
  rw [hbi]
  exact List.getElem_mem hi

theorem fill_fold_spec (coin : Position → Bool) (H W : Nat) :
    ∀ (ps : List Position) (b : Board),
      b.length = H → (∀ row ∈ b, row.length = W) →
      ps.Nodup → (∀ p ∈ ps, p.1 < H ∧ p.2 < W) →
      (∀ p ∈ ps, getCell b p.1 p.2 = 0) →
      (∀ i j, getCell b i j = 0 ∨ getCell b i j = 2 ∨ getCell b i j = 4) →
      (ps.foldl (fun bb p => setCell bb p.1 p.2 (random_tile (coin p))) b).length = H ∧
      (∀ row ∈ ps.foldl (fun bb p => setCell bb p.1 p.2 (random_tile (coin p))) b,
        row.length = W) ∧
      countNonzero (ps.foldl (fun bb p => setCell bb p.1 p.2 (random_tile (coin p))) b)
        = countNonzero b + ps.length ∧
      (∀ i j,
        getCell (ps.foldl (fun bb p => setCell bb p.1 p.2 (random_tile (coin p))) b) i j = 0 ∨
        getCell (ps.foldl (fun bb p => setCell bb p.1 p.2 (random_tile (coin p))) b) i j = 2 ∨
        getCell (ps.foldl (fun bb p => setCell bb p.1 p.2 (random_tile (coin p))) b) i j = 4) := by
  intro ps
  induction ps with
  | nil =>
    intro b hb hr _ _ _ hvals
    exact ⟨hb, hr, by simp, hvals⟩
  | cons p rest ih =>
    intro b hb hr hnd hbounds hfresh hvals
    have hp := hbounds p (List.mem_cons_self p rest)
    have hpz := hfresh p (List.mem_cons_self p rest)
    have hib : p.1 < b.length := by omega
    have hjb : p.2 < (b.getD p.1 []).length := by
      rw [row_length_of_wf hr hib]
      exact hp.2
    have hb1len : (setCell b p.1 p.2 (random_tile (coin p))).length = H := by
      rw [setCell_length]
      exact hb
    have hb1rows : ∀ row ∈ setCell b p.1 p.2 (random_tile (coin p)), row.length = W :=
      setCell_rows hr
    have hcnt1 : countNonzero (setCell b p.1 p.2 (random_tile (coin p)))
        = countNonzero b + 1 :=
      countNonzero_setCell hib hjb hpz (random_tile_ne_zero (coin p))
    have hcnotin : p ∉ rest := (List.nodup_cons.1 hnd).1
    have hfresh1 : ∀ q ∈ rest,
        getCell (setCell b p.1 p.2 (random_tile (coin p))) q.1 q.2 = 0 := by
      intro q hq
      have hqp : ¬(q.1 = p.1 ∧ q.2 = p.2) := by
        rintro ⟨h1, h2⟩
        exact hcnotin (by rwa [show q = p from Prod.ext h1 h2] at hq)
      rw [getCell_setCell_ne hqp]
      exact hfresh q (List.mem_cons_of_mem p hq)
    have hvals1 : ∀ i j,
        getCell (setCell b p.1 p.2 (random_tile (coin p))) i j = 0 ∨
        getCell (setCell b p.1 p.2 (random_tile (coin p))) i j = 2 ∨
        getCell (setCell b p.1 p.2 (random_tile (coin p))) i j = 4 := by
      intro i j
      by_cases hij : i = p.1 ∧ j = p.2
      · obtain ⟨rfl, rfl⟩ := hij
        rw [getCell_setCell_self hib hjb]
        rcases random_tile_cases (coin p) with h | h
        · right; left; exact h
        · right; right; exact h
      · rw [getCell_setCell_ne hij]
        exact hvals i j
    obtain ⟨ih1, ih2, ih3, ih4⟩ := ih (setCell b p.1 p.2 (random_tile (coin p)))
      hb1len hb1rows (List.nodup_cons.1 hnd).2
      (fun q hq => hbounds q (List.mem_cons_of_mem p hq)) hfresh1 hvals1
    refine ⟨ih1, ih2, ?_, ih4⟩
    rw [List.foldl_cons, ih3, hcnt1, List.length_cons]
    omega

theorem countNonzero_emptyBoard (config : BoardConfig) :
    countNonzero (emptyBoard config) = 0 := by
  unfold countNonzero emptyBoard
  rw [List.map_replicate]
  have hrow : (List.replicate config.width 0).countP (fun v => v != 0) = 0 := by
    rw [List.countP_eq_zero]
    intro a ha
    rw [List.eq_of_mem_replicate ha]
    simp
  rw [hrow]
  rw [List.sum_replicate]
  simp

/-! Exact trace of the `move_zeroes_start` write index on fully non-zero
lines: the final loop iteration decrements the `usize` index `j` from `0`,
i.e. the subtraction underflows. -/

theorem compactRevTraceLoop_all_nonzero (l : List Nat)
    (hnz : ∀ k < l.length, l.getD k 0 ≠ 0) :
    ∀ i, i ≤ l.length → compactRevTraceLoop l ((i : Int) - 1) i = (l, -1) := by
  intro i
  induction i with
  | zero => intro _; rfl
  | succ i ih =>
    intro hle
    rw [compactRevTraceLoop]
    rw [if_pos (hnz i (by omega))]
    have htn : ((((i : Nat) + 1 : Nat) : Int) - 1).toNat = i := by omega
    rw [htn, swapCells_self]
    have hj : (((i : Nat) + 1 : Nat) : Int) - 1 - 1 = ((i : Nat) : Int) - 1 := by omega
    rw [hj]
    exact ih (by omega)

theorem move_zeroes_start_trace_underflow (l : List Nat) (hne : l ≠ [])
    (hnz : ∀ k < l.length, l.getD k 0 ≠ 0) :
    (move_zeroes_start_trace l).2 = -1 ∧ move_zeroes_start l = l := by
  constructor
  · unfold move_zeroes_start_trace
    rw [if_neg (by simpa using hne)]
    rw [compactRevTraceLoop_all_nonzero l hnz l.length (Nat.le_refl _)]
  · apply move_zeroes_start_id
    intro i hi j hj _ _
    exact hnz j hj

/-! Claim theorems. -/

/-- Claim C1: every one of the four directional moves leaves the total sum of
all tile values on the board unchanged, and the score increases by exactly
the sum of the doubled values produced by the merges of that move (the
second component of the merge pass is precisely the sum of the doubled
values `2*v` reported to `apply_score`, one per merge performed). -/
theorem C1_mass_conservation_and_score (g : Game) (hwf : WellFormed g) :
    boardSum (move_left g).board = boardSum g.board ∧
    boardSum (move_right g).board = boardSum g.board ∧
    boardSum (move_up g).board = boardSum g.board ∧
    boardSum (move_down g).board = boardSum g.board ∧
    (move_left g).score = g.score
      + (g.board.map (fun row => (mergePassFwd g.config.width row).2)).sum ∧
    (move_right g).score = g.score
      + (g.board.map (fun row => (mergePassRev g.config.width row).2)).sum ∧
    (move_up g).score = g.score + ((List.range g.config.width).map
      (fun c => (mergePassFwd g.config.height (getCol g.board c)).2)).sum ∧
    (move_down g).score = g.score + ((List.range g.config.width).map
      (fun c => (mergePassRev g.config.height (getCol g.board c)).2)).sum := by
  obtain ⟨_, _, hup_sum, _, _, hup_score⟩ := move_up_spec g hwf
  obtain ⟨_, _, hdown_sum, _, _, hdown_score⟩ := move_down_spec g hwf
  exact ⟨move_left_boardSum g, move_right_boardSum g, hup_sum, hdown_sum,
    rfl, rfl, hup_score, hdown_score⟩

/-- Claim C1 witness at the 2-by-2 board [[2,0],[2,0]]. -/
theorem C1_witness :
    boardSum (move_left (Game.mk (BoardConfig.mk 2 2 2) [[2,0],[2,0]] 0)).board
      = boardSum (Game.mk (BoardConfig.mk 2 2 2) [[2,0],[2,0]] 0).board :=
  (C1_mass_conservation_and_score (Game.mk (BoardConfig.mk 2 2 2) [[2,0],[2,0]] 0)
    (by constructor <;> decide)).1

/-- Claim C2: `game_over` returns true exactly when every cell is non-zero
and no scan in any row or column (in either scan direction) finds a non-zero
cell whose first non-zero neighbour in scan order has an equal value; in
particular a grid with a zero cell is never game-over, and the fully filled
2-by-2 grid [[2,4],[4,2]] is game-over. -/
theorem C2_game_over_characterisation (g : Game) :
    (game_over g = true ↔ GameOverP g) ∧
    (∀ i j, i < g.config.height → j < g.config.width → getCell g.board i j = 0 →
      game_over g = false) ∧
    game_over (Game.mk (BoardConfig.mk 2 2 4) [[2,4],[4,2]] 0) = true := by
  refine ⟨game_over_iff g, ?_, by decide⟩
  intro i j hi hj hz
  rw [Bool.eq_false_iff]
  intro ht
  exact ((game_over_iff g).1 ht).1 i hi j hj hz

/-- Claim C2 witness: the grid [[2,0],[0,2]] has a zero cell, hence is not
game-over. -/
theorem C2_witness :
    game_over (Game.mk (BoardConfig.mk 2 2 2) [[2,0],[0,2]] 0) = false :=
  (C2_game_over_characterisation (Game.mk (BoardConfig.mk 2 2 2) [[2,0],[0,2]] 0)).2.1
    0 1 (by decide) (by decide) (by decide)

/-- Claim C5: `random_board` fails with "Empty board!" exactly for
`count = 0`, with "Full board!" exactly for `count = width*height`, with
"Overflow!" exactly for `count > width*height`, and succeeds exactly when
`0 < count < width*height` (for positive dimensions, as required of every
`BoardConfig`, the three error conditions are mutually exclusive). -/
theorem C5_random_board_failure_modes (config : BoardConfig)
    (positions : List Position) (coin : Position → Bool)
    (hw : 0 < config.width) (hh : 0 < config.height) :
    ((∃ b, random_board config positions coin = Except.ok b) ↔
      0 < config.count ∧ config.count < config.width * config.height) ∧
    (random_board config positions coin = Except.error "Empty board!" ↔
      config.count = 0) ∧
    (random_board config positions coin = Except.error "Full board!" ↔
      config.count = config.width * config.height) ∧
    (random_board config positions coin = Except.error "Overflow!" ↔
      config.width * config.height < config.count) := by
  have hwh : 0 < config.width * config.height := Nat.mul_pos hw hh
  have hs1 : ¬(("Empty board!" : String) = "Full board!") := by decide
  have hs2 : ¬(("Empty board!" : String) = "Overflow!") := by decide
  have hs3 : ¬(("Full board!" : String) = "Overflow!") := by decide
  unfold random_board
  by_cases h0 : config.count = 0
  · rw [if_pos h0]
    refine ⟨⟨?_, ?_⟩, ⟨fun _ => h0, fun _ => rfl⟩, ⟨?_, ?_⟩, ⟨?_, ?_⟩⟩
    · rintro ⟨b, hb⟩
      cases hb
    · intro h
      omega
    · intro h
      injection h with h'
      exact absurd h' hs1
    · intro h
      exfalso
      omega
    · intro h
      injection h with h'
      exact absurd h' hs2
    · intro h
      exfalso
      omega
  · rw [if_neg h0]
    by_cases h1 : config.count = config.width * config.height
    · rw [if_pos h1]
      refine ⟨⟨?_, ?_⟩, ⟨?_, ?_⟩, ⟨fun _ => h1, fun _ => rfl⟩, ⟨?_, ?_⟩⟩
      · rintro ⟨b, hb⟩
        cases hb
      · intro h
        omega
      · intro h
        injection h with h'
        exact absurd h'.symm hs1
      · intro h
        exact absurd h h0
      · intro h
        injection h with h'
        exact absurd h' hs3
      · intro h
        exfalso
        omega
    · rw [if_neg h1]
      by_cases h2 : config.width * config.height < config.count
      · rw [if_pos h2]
        refine ⟨⟨?_, ?_⟩, ⟨?_, ?_⟩, ⟨?_, ?_⟩, ⟨fun _ => h2, fun _ => rfl⟩⟩
        · rintro ⟨b, hb⟩
          cases hb
        · intro h
          omega
        · intro h
          injection h with h'
          exact absurd h'.symm hs2
        · intro h
          exfalso
          omega
        · intro h
          injection h with h'
          exact absurd h'.symm hs3
        · intro h
          exact absurd h h1
      · rw [if_neg h2]
        refine ⟨⟨?_, ?_⟩, ⟨?_, ?_⟩, ⟨?_, ?_⟩, ⟨?_, ?_⟩⟩
        · intro _
          constructor
          · omega
          · omega
        · intro _
          exact ⟨fillPositions config positions coin, rfl⟩
        · intro h
          cases h
        · intro h
          exact absurd h h0
        · intro h
          cases h
        · intro h
          exact absurd h h1
        · intro h
          cases h
        · intro h
          exact absurd h h2

/-- Claim C5 witness at the default 4-by-4 configuration with two initial
tiles. -/
theorem C5_witness :
    ∃ b, random_board (BoardConfig.mk 4 4 2) [] (fun _ => false) = Except.ok b :=
  (C5_random_board_failure_modes (BoardConfig.mk 4 4 2) [] (fun _ => false)
    (by decide) (by decide)).1.2 ⟨by decide, by decide⟩

/-- Claim C6: moving the 1-by-4 row [[2,2,2,2]] left yields [[4,4,0,0]] with
a score increase of exactly 8: the two adjacent pairs each merge once and
the resulting 4-tiles are not merged again within the move. -/
theorem C6_double_pair_row :
    (move_left (Game.mk (BoardConfig.mk 4 1 2) [[2,2,2,2]] 0)).board = [[4,4,0,0]] ∧
    (move_left (Game.mk (BoardConfig.mk 4 1 2) [[2,2,2,2]] 0)).score = 8 := by
  decide

/-- Claim C8 counterexample: `move_up` does not leave [[2,0],[0,2]]
unchanged; the bottom-right tile slides to the top, producing [[2,2],[0,0]].
-/
theorem C8_counterexample :
    (move_up (Game.mk (BoardConfig.mk 2 2 2) [[2,0],[0,2]] 0)).board = [[2,2],[0,0]] ∧
    ¬((move_up (Game.mk (BoardConfig.mk 2 2 2) [[2,0],[0,2]] 0)).board
        = [[2,0],[0,2]]) := by
  decide

/-- Claim C8 as amended: `move_up` on [[2,0],[0,2]] yields [[2,2],[0,0]]
with unchanged score (both tiles slide to the top row, no merge), and
`move_down` on [[2,0],[2,0]] yields [[0,0],[4,0]] with the score increased
by exactly 4. -/
theorem C8_amended :
    (move_up (Game.mk (BoardConfig.mk 2 2 2) [[2,0],[0,2]] 0)).board = [[2,2],[0,0]] ∧
    (move_up (Game.mk (BoardConfig.mk 2 2 2) [[2,0],[0,2]] 0)).score = 0 ∧
    (move_down (Game.mk (BoardConfig.mk 2 2 2) [[2,0],[2,0]] 0)).board = [[0,0],[4,0]] ∧
    (move_down (Game.mk (BoardConfig.mk 2 2 2) [[2,0],[2,0]] 0)).score = 4 := by
  decide

/-- Claim C10: on a fully non-zero line the final iteration of the
`move_zeroes_start` loop decrements the `usize` write index `j` from `0`,
underflowing it (final exact value `-1`); the array contents are still left
unchanged because the wrapped index is never used again. -/
theorem C10_underflow_on_full_line :
    (move_zeroes_start_trace [2, 4]).2 = -1 ∧ move_zeroes_start [2, 4] = [2, 4] := by
  decide

/-- Claim C3 counterexample: at the game-over state [[2,4],[4,2]] the Left
move leaves the grid cell-for-cell identical, yet `play_move` reports
GameOver and not NoMove, so the claimed equivalence fails without the
precondition that the game is still live. -/
theorem C3_counterexample :
    (move_left (Game.mk (BoardConfig.mk 2 2 4) [[2,4],[4,2]] 0)).board
      = (Game.mk (BoardConfig.mk 2 2 4) [[2,4],[4,2]] 0).board ∧
    (play_move (Game.mk (BoardConfig.mk 2 2 4) [[2,4],[4,2]] 0)
      Keypress.Left 0 false).2 = GameResult.GameOver ∧
    ¬((play_move (Game.mk (BoardConfig.mk 2 2 4) [[2,4],[4,2]] 0)
      Keypress.Left 0 false).2 = GameResult.NoMove) := by
  decide

/-- Claim C3 as amended: for every well-formed state that is not already
game-over and every directional key, `play_move` reports NoMove exactly when
the applied move leaves the grid cell-for-cell identical; in that case the
resulting state is exactly the original (grid, score and config unchanged,
no tile injected), and `play_move` reports NextMove exactly when the grid
changed, in which case the result is the moved state with one tile
injection applied. -/
theorem C3_amended (g : Game) (k : Keypress) (r : Nat) (four : Bool)
    (hwf : WellFormed g) (hover : game_over g = false) (hk : Directional k) :
    ((play_move g k r four).2 = GameResult.NoMove ↔ (dirMove k g).board = g.board) ∧
    ((play_move g k r four).2 = GameResult.NoMove →
      play_move g k r four = (g, GameResult.NoMove)) ∧
    ((play_move g k r four).2 = GameResult.NextMove ↔ ¬((dirMove k g).board = g.board)) ∧
    ((play_move g k r four).2 = GameResult.NextMove →
      play_move g k r four
        = (add_random_tile (dirMove k g) r four, GameResult.NextMove)) := by
  rw [play_move_dir g k r four hover hk]
  by_cases hb : (dirMove k g).board = g.board
  · rw [if_pos hb]
    have hg : dirMove k g = g := dirMove_noop g k hwf hb
    refine ⟨⟨fun _ => hb, fun _ => rfl⟩, fun _ => by rw [hg], ⟨?_, ?_⟩, ?_⟩
    · intro h
      exact GameResult.noConfusion h
    · intro h
      exact absurd hb h
    · intro h
      exact GameResult.noConfusion h
  · rw [if_neg hb]
    refine ⟨⟨?_, ?_⟩, ?_, ⟨fun _ => hb, fun _ => rfl⟩, fun _ => rfl⟩
    · intro h
      exact GameResult.noConfusion h
    · intro h
      exact absurd h hb
    · intro h
      exact GameResult.noConfusion h

/-- Claim C3 witness: on the live board [[2,0],[0,0]] the Left move is a
no-op and is reported as NoMove. -/
theorem C3_witness :
    (play_move (Game.mk (BoardConfig.mk 2 2 2) [[2,0],[0,0]] 0)
      Keypress.Left 0 false).2 = GameResult.NoMove :=
  (C3_amended (Game.mk (BoardConfig.mk 2 2 2) [[2,0],[0,0]] 0) Keypress.Left 0 false
    (by constructor <;> decide) (by decide) (Or.inl rfl)).1.2 (by decide)

/-- Claim C4: for a valid configuration and any draw of `count` pairwise
distinct in-range positions with any sequence of tile coins, `random_board`
succeeds, and the produced grid has exactly `height` rows of `width` cells,
exactly `count` non-zero cells, and every non-zero cell equal to 2 or 4. -/
theorem C4_random_board_produced_grid (config : BoardConfig)
    (positions : List Position) (coin : Position → Bool)
    (hc1 : 0 < config.count) (hc2 : config.count < config.width * config.height)
    (hnd : positions.Nodup) (hlen : positions.length = config.count)
    (hbounds : ∀ p ∈ positions, p.1 < config.height ∧ p.2 < config.width) :
    random_board config positions coin
      = Except.ok (fillPositions config positions coin) ∧
    (fillPositions config positions coin).length = config.height ∧
    (∀ row ∈ fillPositions config positions coin, row.length = config.width) ∧
    countNonzero (fillPositions config positions coin) = config.count ∧
    (∀ i j, getCell (fillPositions config positions coin) i j ≠ 0 →
      getCell (fillPositions config positions coin) i j = 2 ∨
      getCell (fillPositions config positions coin) i j = 4) := by
  have hok : random_board config positions coin
      = Except.ok (fillPositions config positions coin) := by
    unfold random_board
    rw [if_neg (by omega), if_neg (by omega), if_neg (by omega)]
  obtain ⟨h1, h2, h3, h4⟩ := fill_fold_spec coin config.height config.width positions
    (emptyBoard config) (emptyBoard_length config) (emptyBoard_rows config)
    hnd hbounds
    (fun p _ => getCell_emptyBoard config p.1 p.2)
    (fun i j => Or.inl (getCell_emptyBoard config i j))
  refine ⟨hok, h1, h2, ?_, ?_⟩
  · show countNonzero (fillPositions config positions coin) = config.count
    unfold fillPositions
    rw [h3, countNonzero_emptyBoard, hlen]
    omega
  · intro i j hnz
    rcases h4 i j with h | h | h
    · exact absurd h hnz
    · exact Or.inl h
    · exact Or.inr h

/-- Claim C4 witness: a 2-by-2 board with one tile at (0,0). -/
theorem C4_witness :
    countNonzero (fillPositions (BoardConfig.mk 2 2 1) [(0, 0)] (fun _ => false)) = 1 :=
  (C4_random_board_produced_grid (BoardConfig.mk 2 2 1) [(0, 0)] (fun _ => false)
    (by decide) (by decide) (by decide) (by decide) (by decide)).2.2.2.1

/-- Claim C7: on a well-formed grid with at least one empty cell,
`add_random_tile` (for any admissible random index) turns exactly one
previously-zero cell into a 2 or a 4 and leaves every other cell and the
score unchanged; on a grid with no empty cell it is a no-op. -/
theorem C7_add_random_tile (g : Game) (r : Nat) (four : Bool) (hwf : WellFormed g) :
    ((∀ i, i < g.config.height → ∀ j, j < g.config.width →
        getCell g.board i j ≠ 0) → add_random_tile g r four = g) ∧
    (r < (free_tiles g).length →
      ∃ i j, i < g.config.height ∧ j < g.config.width ∧ getCell g.board i j = 0 ∧
        (getCell (add_random_tile g r four).board i j = 2 ∨
         getCell (add_random_tile g r four).board i j = 4) ∧
        (∀ i' j', ¬(i' = i ∧ j' = j) →
          getCell (add_random_tile g r four).board i' j' = getCell g.board i' j') ∧
        (add_random_tile g r four).score = g.score) ∧
    ((∃ i, i < g.config.height ∧ ∃ j, j < g.config.width ∧ getCell g.board i j = 0) →
      0 < (free_tiles g).length) := by
  refine ⟨?_, ?_, ?_⟩
  · intro h
    exact add_random_tile_of_full g r four (fun i hi j hj => h i hi j hj)
  · intro hr
    obtain ⟨i, j, h1, h2, h3, h4, h5, h6, _⟩ := add_random_tile_spec g r four hwf hr
    refine ⟨i, j, h1, h2, h3, ?_, h5, h6⟩
    rcases random_tile_cases four with ht | ht
    · left
      rw [h4, ht]
    · right
      rw [h4, ht]
  · rintro ⟨i, hi, j, hj, hz⟩
    have hmem : ((i, j) : Position) ∈ free_tiles g :=
      (mem_free_tiles g (i, j)).2 ⟨hi, hj, hz⟩
    exact List.length_pos.2 (List.ne_nil_of_mem hmem)

/-- Claim C7 witness: injecting into [[2,0],[0,0]] with random index 0. -/
theorem C7_witness :
    ∃ i j, i < 2 ∧ j < 2 ∧
      getCell (Game.mk (BoardConfig.mk 2 2 2) [[2,0],[0,0]] 0).board i j = 0 ∧
      (getCell (add_random_tile (Game.mk (BoardConfig.mk 2 2 2) [[2,0],[0,0]] 0)
          0 false).board i j = 2 ∨
       getCell (add_random_tile (Game.mk (BoardConfig.mk 2 2 2) [[2,0],[0,0]] 0)
          0 false).board i j = 4) ∧
      (∀ i' j', ¬(i' = i ∧ j' = j) →
        getCell (add_random_tile (Game.mk (BoardConfig.mk 2 2 2) [[2,0],[0,0]] 0)
            0 false).board i' j'
          = getCell (Game.mk (BoardConfig.mk 2 2 2) [[2,0],[0,0]] 0).board i' j') ∧
      (add_random_tile (Game.mk (BoardConfig.mk 2 2 2) [[2,0],[0,0]] 0) 0 false).score
        = (Game.mk (BoardConfig.mk 2 2 2) [[2,0],[0,0]] 0).score :=
  (C7_add_random_tile (Game.mk (BoardConfig.mk 2 2 2) [[2,0],[0,0]] 0) 0 false
    (by constructor <;> decide)).2.1 (by decide)

/-- Claim C9 counterexample: the fully filled grid [[2,4],[4,2]] satisfies
the claim's hypotheses (every row compacted right, no mergeable pair in the
right-to-left scan) and `move_right` is the identity on it, yet `play_move`
reports GameOver rather than NoMove. -/
theorem C9_counterexample :
    (∀ row ∈ (Game.mk (BoardConfig.mk 2 2 4) [[2,4],[4,2]] 0).board,
      CompactedRight row) ∧
    (∀ row ∈ (Game.mk (BoardConfig.mk 2 2 4) [[2,4],[4,2]] 0).board,
      lineHasMergeRev 2 row = false) ∧
    move_right (Game.mk (BoardConfig.mk 2 2 4) [[2,4],[4,2]] 0)
      = Game.mk (BoardConfig.mk 2 2 4) [[2,4],[4,2]] 0 ∧
    (play_move (Game.mk (BoardConfig.mk 2 2 4) [[2,4],[4,2]] 0)
      Keypress.Right 0 false).2 = GameResult.GameOver ∧
    ¬((play_move (Game.mk (BoardConfig.mk 2 2 4) [[2,4],[4,2]] 0)
      Keypress.Right 0 false).2 = GameResult.NoMove) := by
  refine ⟨?_, ?_, ?_, ?_, ?_⟩ <;> decide

/-- Claim C9 as amended: on every grid whose rows are all compacted toward
the right with no mergeable pair in the right-to-left scan, `move_right` is
the identity (same grid, same score), hence so is a second application; and
whenever such a state is not already game-over, `play_move` with Right
reports it as a no-op. -/
theorem C9_amended (g : Game) (r : Nat) (four : Bool)
    (hcomp : ∀ row ∈ g.board, CompactedRight row)
    (hnm : ∀ row ∈ g.board, lineHasMergeRev g.config.width row = false) :
    move_right g = g ∧ move_right (move_right g) = g ∧
    (game_over g = false →
      play_move g Keypress.Right r four = (g, GameResult.NoMove)) := by
  have h1 : move_right g = g := move_right_id g hcomp hnm
  refine ⟨h1, by rw [h1, h1], ?_⟩
  intro hover
  rw [play_move_dir g Keypress.Right r four hover (Or.inr (Or.inl rfl))]
  rw [show dirMove Keypress.Right g = g from h1]
  rw [if_pos rfl]

/-- Claim C9 witness: the compacted row [[0,2]] is a Right no-op. -/
theorem C9_witness :
    play_move (Game.mk (BoardConfig.mk 2 1 1) [[0,2]] 0) Keypress.Right 0 false
      = (Game.mk (BoardConfig.mk 2 1 1) [[0,2]] 0, GameResult.NoMove) :=
  (C9_amended (Game.mk (BoardConfig.mk 2 1 1) [[0,2]] 0) 0 false
    (by decide) (by decide)).2.2 (by decide)
